import Mathlib

/-
Verification of the checkpoint store of the Redshift-ResNet repository.

The development shallowly embeds the two core source files:

 * `src/preprocessing/sdss/sdss_utils.py` — the content hasher `get_hash`
   (SHA-1 over the UTF-8 bytes of the separator-free concatenation of the
   input strings).  SHA-1 is embedded concretely, bytes and 32-bit words
   as `Nat` with explicit reduction modulo 2^32, and is validated below
   against published digests and against the blob filename hard-coded in
   the repository's own test suite.

 * `src/preprocessing/sdss/checkpoint_objects.py` — the `CheckPointer`
   class.  Its mutable state (in-memory seen-key set, watermark) and the
   files it touches (ledger text file, `metadata.json` index, pickle
   blobs) are modelled as one explicit `Store` record; each method
   becomes a pure function on `Store`.  Python dictionaries are modelled
   as association lists with Python's insertion/overwrite semantics,
   Python's `str.split` / `str.join` are modelled character-exactly.
-/

/- ===================== SHA-1 (content hasher) ===================== -/

def rotl (n x : Nat) : Nat := ((x <<< n) ||| (x >>> (32 - n))) % 4294967296

def utf8Char (c : Char) : List Nat :=
  let n := c.toNat
  if n < 128 then [n]
  else if n < 2048 then
    [192 ||| (n >>> 6), 128 ||| (n &&& 63)]
  else if n < 65536 then
    [224 ||| (n >>> 12), 128 ||| ((n >>> 6) &&& 63), 128 ||| (n &&& 63)]
  else
    [240 ||| (n >>> 18), 128 ||| ((n >>> 12) &&& 63),
     128 ||| ((n >>> 6) &&& 63), 128 ||| (n &&& 63)]

def utf8Bytes (s : String) : List Nat := (s.data.map utf8Char).flatten

def sha1Pad (msg : List Nat) : List Nat :=
  let len := msg.length
  let zeros := (56 + 64 - ((len + 1) % 64)) % 64
  msg ++ [128] ++ List.replicate zeros 0 ++
    (List.range 8).map (fun i => ((len * 8) >>> (8 * (7 - i))) % 256)

def chunksAux (buf : List Nat) : List Nat → List (List Nat)
  | [] => if buf = [] then [] else [buf.reverse]
  | b :: rest =>
      if buf.length = 63 then (buf.reverse ++ [b]) :: chunksAux [] rest
      else chunksAux (b :: buf) rest

def chunks64 (l : List Nat) : List (List Nat) := chunksAux [] l

def bytesToWords : List Nat → List Nat
  | b0 :: b1 :: b2 :: b3 :: rest =>
      ((b0 <<< 24) ||| (b1 <<< 16) ||| (b2 <<< 8) ||| b3) :: bytesToWords rest
  | _ => []

def expandStep (a : Array Nat) : Array Nat :=
  a.push (rotl 1 ((a.getD (a.size - 3) 0) ^^^ (a.getD (a.size - 8) 0) ^^^
                  (a.getD (a.size - 14) 0) ^^^ (a.getD (a.size - 16) 0)))

def expandWords (ws : List Nat) : Array Nat := Nat.repeat expandStep 64 ws.toArray

def sha1F (i b c d : Nat) : Nat :=
  if i < 20 then (b &&& c) ||| ((b ^^^ 4294967295) &&& d)
  else if i < 40 then b ^^^ c ^^^ d
  else if i < 60 then (b &&& c) ||| (b &&& d) ||| (c &&& d)
  else b ^^^ c ^^^ d

def sha1K (i : Nat) : Nat :=
  if i < 20 then 1518500249
  else if i < 40 then 1859775393
  else if i < 60 then 2400959708
  else 3395469782

def sha1Round (w : Array Nat) (st : Nat × Nat × Nat × Nat × Nat) (i : Nat) :
    Nat × Nat × Nat × Nat × Nat :=
  let a := st.1
  let b := st.2.1
  let c := st.2.2.1
  let d := st.2.2.2.1
  let e := st.2.2.2.2
  let temp := (rotl 5 a + sha1F i b c d + e + sha1K i + w.getD i 0) % 4294967296
  (temp, a, rotl 30 b, c, d)

def processChunk (h : Nat × Nat × Nat × Nat × Nat) (chunk : List Nat) :
    Nat × Nat × Nat × Nat × Nat :=
  let w := expandWords (bytesToWords chunk)
  let st := (List.range 80).foldl (sha1Round w) h
  ((h.1 + st.1) % 4294967296,
   (h.2.1 + st.2.1) % 4294967296,
   (h.2.2.1 + st.2.2.1) % 4294967296,
   (h.2.2.2.1 + st.2.2.2.1) % 4294967296,
   (h.2.2.2.2 + st.2.2.2.2) % 4294967296)

def sha1Words (msg : List Nat) : Nat × Nat × Nat × Nat × Nat :=
  (chunks64 (sha1Pad msg)).foldl processChunk
    (1732584193, 4023233417, 2562383102, 271733878, 3285377520)

def hexChar (n : Nat) : Char :=
  if n < 10 then Char.ofNat (48 + n) else Char.ofNat (87 + n)

def hexWord (w : Nat) : String :=
  String.mk ((List.range 8).map (fun i => hexChar ((w >>> (4 * (7 - i))) % 16)))

def sha1Hex (msg : List Nat) : String :=
  let h := sha1Words msg
  hexWord h.1 ++ hexWord h.2.1 ++ hexWord h.2.2.1 ++ hexWord h.2.2.2.1 ++ hexWord h.2.2.2.2

/-- `get_hash` from `sdss_utils.py`: the SHA-1 hex digest of the UTF-8 bytes of
the concatenation (no separator, `''.join`) of the strings. -/
def get_hash (iterable : List String) : String :=
  sha1Hex (utf8Bytes (String.join iterable))

set_option maxRecDepth 40000

/- Validation of the SHA-1 embedding against well-known digests. -/

example : sha1Hex [] = "da39a3ee5e6b4b0d3255bfef95601890afd80709" := by decide

example : get_hash ["abc"] = "a9993e364706816aba3e25717850c26c9cd0d89d" := by decide

/- ===================== Python string/dict primitives ===================== -/

/-- Python `str.split(sep)` for a one-character separator, on character lists:
splits at every occurrence; `n` separators yield `n+1` (possibly empty)
parts; the empty string yields `[""]`. -/
def pySplit (sep : Char) : List Char → List (List Char)
  | [] => [[]]
  | c :: cs =>
      if c = sep then [] :: pySplit sep cs
      else
        match pySplit sep cs with
        | [] => [[c]]
        | p :: ps => (c :: p) :: ps

/-- Python `sep.join(parts)` on character lists. -/
def pyJoin (sep : List Char) : List (List Char) → List Char
  | [] => []
  | [t] => t
  | t :: ts => t ++ sep ++ pyJoin sep ts

/-- Lookup in a Python-dict model (association list with unique keys). -/
def dictLookup {α : Type} : List (String × α) → String → Option α
  | [], _ => none
  | (k, v) :: rest, key => if k = key then some v else dictLookup rest key

/-- Python `key in dict`. -/
def dictContainsKey {α : Type} (d : List (String × α)) (k : String) : Bool :=
  d.any (fun p => p.1 == k)

/-- Overwrite the value stored at `k` in place, keeping its position. -/
def dictReplace {α : Type} : List (String × α) → String → α → List (String × α)
  | [], _, _ => []
  | (k', v') :: rest, k, v =>
      if k' = k then (k, v) :: dictReplace rest k v
      else (k', v') :: dictReplace rest k v

/-- Python `d[key] = value`: overwrite in place if the key is present
(keeping its original position), otherwise append at the end. -/
def dictInsert {α : Type} (d : List (String × α)) (k : String) (v : α) :
    List (String × α) :=
  if dictContainsKey d k then dictReplace d k v
  else d ++ [(k, v)]

/- ===================== Checkpoint store model ===================== -/

/-- A checkpointed object: the `key` the store interprets plus an uninterpreted
payload standing for the remaining fields of the caller's metaclass (for
`RedShiftCheckPointObject`: the numpy array, redshift, galaxy metadata,
image path and timestamp, none of which the store reads). -/
structure CkptObject (β : Type) where
  key : String
  payload : β
deriving DecidableEq, Repr

/-- One element of the `meta_objects` argument of `save_objects`: either an
instance of the metaclass, a `dict` of keyword fields that constructs into
one, or a value that is neither (which the type check rejects). -/
inductive Candidate (β : Type)
  | inst (o : CkptObject β)
  | fieldDict (o : CkptObject β)
  | bad
deriving DecidableEq, Repr

/-- The per-candidate normalization of the `save_objects` loop:
a `dict` is passed to the metaclass constructor, a metaclass instance is
kept, anything else fails the `isinstance` check. -/
def constructObj {β : Type} : Candidate β → Option (CkptObject β)
  | Candidate.inst o => some o
  | Candidate.fieldDict o => some o
  | Candidate.bad => none

/-- Errors raised by `save_objects`: the `ValueError` for oversized batches
and the `TypeError` for candidates of the wrong type. -/
inductive SaveError
  | oversized
  | typeError
deriving DecidableEq, Repr

/-- Errors raised by `get_specific_object`: the `KeyError` raised
explicitly (and by the final dict subscript), and the `FileNotFoundError`
that opening a missing pickle file would raise. -/
inductive GetError
  | keyNotFound
  | fileNotFound
deriving DecidableEq, Repr

/-- The state of one `CheckPointer` instance together with the files it
owns: `obj_set` and `last_modified` are in-memory attributes; `ledgerFile`
is the content of `<ckpt_dir>/<guid>.txt` (`none` = file absent);
`metadataFile` is the parsed content of `metadata.json` (`none` = file
absent); `blobs` maps each pickle filename to the dict it stores. -/
structure Store (β : Type) where
  obj_set : Finset String
  ledgerFile : Option (List Char)
  metadataFile : Option (List (String × List String))
  blobs : List (String × List (String × CkptObject β))
  last_modified : Nat
  max_objects : Nat
deriving DecidableEq

/-- A `CheckPointer` constructed over a directory with no prior checkpoint
state: empty seen-key set, construction time as the watermark, no files. -/
def newStore (β : Type) (maxObjects ctime : Nat) : Store β :=
  { obj_set := ∅
    ledgerFile := none
    metadataFile := none
    blobs := []
    last_modified := ctime
    max_objects := maxObjects }

/-- The ledger-loading branch of `CheckPointer.__init__`: if the ledger
file exists its content is split on commas and collected into a set,
otherwise the set starts empty. -/
def loadObjSet : Option (List Char) → Finset String
  | none => ∅
  | some content => ((pySplit ',' content).map String.mk).toFinset

/-- The candidate loop of `save_objects`, carrying the `objects_to_save`
dict and the `keys_to_save` list: each candidate is normalized (aborting
with `TypeError` on failure); a candidate whose key is already in
`obj_set` is skipped; otherwise it is put into the dict (overwriting any
earlier occurrence of the same key) and its key appended to the list. -/
def processAux {β : Type} (objSet : Finset String)
    (accD : List (String × CkptObject β)) (accKs : List String) :
    List (Candidate β) →
    Except SaveError (List (String × CkptObject β) × List String)
  | [] => Except.ok (accD, accKs)
  | c :: rest =>
      match constructObj c with
      | none => Except.error SaveError.typeError
      | some o =>
          if o.key ∈ objSet then processAux objSet accD accKs rest
          else processAux objSet (dictInsert accD o.key o) (accKs ++ [o.key]) rest

def processCandidates {β : Type} (objSet : Finset String)
    (cands : List (Candidate β)) :
    Except SaveError (List (String × CkptObject β) × List String) :=
  processAux objSet [] [] cands

/-- `CheckPointer._save_pkl`: pickle the dict to
`<guid>/<get_hash(keys)>.pkl` (truncating any existing file of that
name), then load `metadata.json` if present (else start from the empty
mapping), set its entry for that filename to the dict's key list, and
rewrite it. -/
def save_pkl {β : Type} (s : Store β) (d : List (String × CkptObject β)) :
    Store β :=
  let filename := get_hash (d.map Prod.fst) ++ ".pkl"
  { s with
    blobs := dictInsert s.blobs filename d
    metadataFile := some (dictInsert (s.metadataFile.getD []) filename (d.map Prod.fst)) }

/-- The chunk `_update_objects_on_disk` appends to the ledger file:
the keys joined with commas, followed by one trailing comma. -/
def ledgerChunk (ks : List String) : List Char :=
  pyJoin [','] (ks.map String.data) ++ [',']

/-- `CheckPointer._update_objects_on_disk`: append the comma-joined keys
plus a trailing comma to the ledger file (created empty first if absent),
then add the keys to the in-memory set. -/
def update_objects_on_disk {β : Type} (s : Store β) (ks : List String) :
    Store β :=
  { s with
    ledgerFile := some ((s.ledgerFile.getD []) ++ ledgerChunk ks)
    obj_set := s.obj_set ∪ ks.toFinset }

/-- `CheckPointer.save_objects`.  `none` input is a no-op; a batch longer
than `max_objects` raises `ValueError` before anything else; the candidate
loop may raise `TypeError`; if the resulting dict is non-empty the pickle
and index are written, the ledger appended, and the watermark set to the
current time `now`; an all-duplicates batch changes nothing.  The returned
store is the state at return or at raise time. -/
def save_objects {β : Type} (s : Store β) (metaObjects : Option (List (Candidate β)))
    (now : Nat) : Store β × Option SaveError :=
  match metaObjects with
  | none => (s, none)
  | some cands =>
      if cands.length > s.max_objects then (s, some SaveError.oversized)
      else
        match processCandidates s.obj_set cands with
        | Except.error e => (s, some e)
        | Except.ok (d, ks) =>
            if 0 < d.length then
              let s1 := save_pkl s d
              let s2 := update_objects_on_disk s1 ks
              ({ s2 with last_modified := now }, none)
            else (s, none)

/-- The scan of `get_specific_object` over the parsed `metadata.json`:
remember the blob name of every entry whose key list contains the key;
the last match wins. -/
def lastMatch (meta : List (String × List String)) (k : String) : Option String :=
  meta.foldl (fun acc p => if k ∈ p.2 then some p.1 else acc) none

/-- `CheckPointer.get_specific_object`: `KeyError` if `metadata.json` does
not exist or no entry's key list contains the key; otherwise the blob
named by the last matching entry is unpickled (`FileNotFoundError` if that
file is gone) and subscripted at the key (`KeyError` if absent). -/
def get_specific_object {β : Type} (s : Store β) (objKey : String) :
    Except GetError (CkptObject β) :=
  match s.metadataFile with
  | none => Except.error GetError.keyNotFound
  | some meta =>
      match lastMatch meta objKey with
      | none => Except.error GetError.keyNotFound
      | some tgtFile =>
          match dictLookup s.blobs tgtFile with
          | none => Except.error GetError.fileNotFound
          | some objectsDict =>
              match dictLookup objectsDict objKey with
              | none => Except.error GetError.keyNotFound
              | some o => Except.ok o

/- ===================== Call sequences ===================== -/

/-- One `save_objects` call: its argument and the wall-clock time the call
would record as the new watermark. -/
structure SaveInput (β : Type) where
  objs : Option (List (Candidate β))
  now : Nat
deriving DecidableEq

/-- Decidable equality for `Except` results, used to evaluate the concrete
scenarios below. -/
def exceptDecEq {eps alpha : Type} [DecidableEq eps] [DecidableEq alpha] :
    DecidableEq (Except eps alpha)
  | Except.ok a, Except.ok b =>
      if h : a = b then isTrue (by rw [h])
      else isFalse (fun hc => h (Except.ok.inj hc))
  | Except.error e, Except.error f =>
      if h : e = f then isTrue (by rw [h])
      else isFalse (fun hc => h (Except.error.inj hc))
  | Except.ok _, Except.error _ => isFalse (fun hc => Except.noConfusion hc)
  | Except.error _, Except.ok _ => isFalse (fun hc => Except.noConfusion hc)

instance {eps alpha : Type} [DecidableEq eps] [DecidableEq alpha] :
    DecidableEq (Except eps alpha) := exceptDecEq

/-- Run a sequence of `save_objects` calls, stopping at the first raise. -/
def runSaves {β : Type} (s : Store β) : List (SaveInput β) → Store β × Option SaveError
  | [] => (s, none)
  | b :: bs =>
      match save_objects s b.objs b.now with
      | (s', none) => runSaves s' bs
      | (s', some e) => (s', some e)

/-- The pickle filename a `save_objects` call would create, when it would
create one. -/
def writtenFilename {β : Type} (s : Store β) (metaObjects : Option (List (Candidate β))) :
    Option String :=
  match metaObjects with
  | none => none
  | some cands =>
      if cands.length > s.max_objects then none
      else
        match processCandidates s.obj_set cands with
        | Except.error _ => none
        | Except.ok (d, _) =>
            if 0 < d.length then some (get_hash (d.map Prod.fst) ++ ".pkl") else none

/-- A call is name-fresh when the blob filename it would write does not
already occur in the index (so SHA-1 does not collide with an earlier
blob's name). -/
def saveFresh {β : Type} (s : Store β) (metaObjects : Option (List (Candidate β))) : Bool :=
  match writtenFilename s metaObjects with
  | none => true
  | some f => !(dictContainsKey (s.metadataFile.getD []) f)

/-- Every call of the sequence is name-fresh at its turn. -/
def freshRun {β : Type} (s : Store β) : List (SaveInput β) → Bool
  | [] => true
  | b :: bs => saveFresh s b.objs && freshRun (save_objects s b.objs b.now).1 bs

/- ===================== Statement vocabulary ===================== -/

/-- The set of all keys listed anywhere in the index document. -/
def indexUnion {β : Type} (s : Store β) : Finset String :=
  ((s.metadataFile.getD []).map (fun p => p.2.toFinset)).foldr (· ∪ ·) ∅

/-- How many blob files store an object under key `k`. -/
def countStored {β : Type} (s : Store β) (k : String) : Nat :=
  (s.blobs.filter (fun p => dictContainsKey p.2 k)).length

/-- The last candidate of the batch whose key is `k` and not yet seen
(the occurrence whose payload the `objects_to_save` dict retains). -/
def lastNewWithKey {β : Type} (objSet : Finset String) (cands : List (Candidate β))
    (k : String) : Option (CkptObject β) :=
  cands.foldl
    (fun acc c =>
      match constructObj c with
      | some o => if o.key = k ∧ o.key ∉ objSet then some o else acc
      | none => acc)
    none

/-- A candidate whose (constructed) key contains no comma; `bad`
candidates count vacuously. -/
def keyCommaFree {β : Type} (c : Candidate β) : Bool :=
  match constructObj c with
  | some o => !(o.key.data.contains ',')
  | none => true

def inputKeysCommaFree {β : Type} (inp : SaveInput β) : Bool :=
  match inp.objs with
  | none => true
  | some l => l.all keyCommaFree

/- ===================== Dictionary lemmas ===================== -/

theorem dictLookup_append {α : Type} (d e : List (String × α)) (g : String) :
    dictLookup (d ++ e) g =
      match dictLookup d g with
      | some v => some v
      | none => dictLookup e g := by
  induction d with
  | nil => simp [dictLookup]
  | cons p rest ih =>
      obtain ⟨k, v⟩ := p
      by_cases h : k = g <;> simp [dictLookup, h, ih]

theorem dictLookup_append_left {α : Type} {d : List (String × α)} {g : String}
    {v : α} (h : dictLookup d g = some v) (e : List (String × α)) :
    dictLookup (d ++ e) g = some v := by
  rw [dictLookup_append, h]

theorem dictContainsKey_iff {α : Type} (d : List (String × α)) (k : String) :
    dictContainsKey d k = true ↔ k ∈ d.map Prod.fst := by
  simp only [dictContainsKey, List.any_eq_true, List.mem_map]
  constructor
  · rintro ⟨p, hp, he⟩
    exact ⟨p, hp, by simpa [beq_iff_eq] using he⟩
  · rintro ⟨p, hp, he⟩
    exact ⟨p, hp, by simpa [beq_iff_eq] using he⟩

theorem dictLookup_isSome_of_mem {α : Type} {d : List (String × α)} {k : String}
    (h : k ∈ d.map Prod.fst) : ∃ v, dictLookup d k = some v := by
  induction d with
  | nil => simp at h
  | cons p rest ih =>
      obtain ⟨k', v'⟩ := p
      by_cases he : k' = k
      · exact ⟨v', by simp [dictLookup, he]⟩
      · simp only [List.map_cons, List.mem_cons] at h
        rcases h with h | h
        · exact absurd h.symm he
        · obtain ⟨v, hv⟩ := ih h
          exact ⟨v, by simp [dictLookup, he, hv]⟩

theorem mem_of_dictLookup_some {α : Type} {d : List (String × α)} {k : String}
    {v : α} (h : dictLookup d k = some v) : (k, v) ∈ d := by
  induction d with
  | nil => simp [dictLookup] at h
  | cons p rest ih =>
      obtain ⟨k', v'⟩ := p
      by_cases he : k' = k
      · simp only [dictLookup, if_pos he] at h
        subst he
        simp [Option.some.inj h]
      · simp only [dictLookup, if_neg he] at h
        exact List.mem_cons_of_mem _ (ih h)

theorem mem_fst_of_dictLookup_some {α : Type} {d : List (String × α)} {k : String}
    {v : α} (h : dictLookup d k = some v) : k ∈ d.map Prod.fst :=
  List.mem_map.mpr ⟨(k, v), mem_of_dictLookup_some h, rfl⟩

theorem dictLookup_eq_none_of_not_mem {α : Type} {d : List (String × α)} {k : String}
    (h : k ∉ d.map Prod.fst) : dictLookup d k = none := by
  cases hv : dictLookup d k with
  | none => rfl
  | some v => exact absurd (mem_fst_of_dictLookup_some hv) h

theorem dictLookup_replace_self {α : Type} {d : List (String × α)} {k : String}
    (v : α) (h : k ∈ d.map Prod.fst) :
    dictLookup (dictReplace d k v) k = some v := by
  induction d with
  | nil => simp at h
  | cons p rest ih =>
      obtain ⟨k', v'⟩ := p
      by_cases he : k' = k
      · simp [dictReplace, dictLookup, he]
      · simp only [List.map_cons, List.mem_cons] at h
        rcases h with h | h
        · exact absurd h.symm he
        · simp [dictReplace, dictLookup, he, ih h]

theorem dictLookup_replace_other {α : Type} (d : List (String × α)) (k g : String)
    (v : α) (hne : g ≠ k) :
    dictLookup (dictReplace d k v) g = dictLookup d g := by
  induction d with
  | nil => rfl
  | cons p rest ih =>
      obtain ⟨k', v'⟩ := p
      by_cases he : k' = k
      · subst he
        simp [dictReplace, dictLookup, Ne.symm hne, ih]
      · by_cases hg : k' = g
        · subst hg
          simp [dictReplace, dictLookup, he]
        · simp [dictReplace, dictLookup, he, hg, ih]

theorem dictLookup_insert_self {α : Type} (d : List (String × α)) (k : String) (v : α) :
    dictLookup (dictInsert d k v) k = some v := by
  unfold dictInsert
  by_cases h : dictContainsKey d k = true
  · rw [if_pos h]
    exact dictLookup_replace_self v ((dictContainsKey_iff d k).mp h)
  · rw [if_neg (by simp [h])]
    rw [dictLookup_append]
    rw [dictLookup_eq_none_of_not_mem (fun hm => h ((dictContainsKey_iff d k).mpr hm))]
    simp [dictLookup]

theorem dictLookup_insert_other {α : Type} (d : List (String × α)) (k g : String)
    (v : α) (hne : g ≠ k) : dictLookup (dictInsert d k v) g = dictLookup d g := by
  unfold dictInsert
  by_cases h : dictContainsKey d k = true
  · rw [if_pos h]
    exact dictLookup_replace_other d k g v hne
  · rw [if_neg (by simp [h])]
    rw [dictLookup_append]
    cases hv : dictLookup d g with
    | some v' => rfl
    | none => simp [dictLookup, Ne.symm hne]

theorem map_fst_dictReplace {α : Type} (d : List (String × α)) (k : String) (v : α) :
    (dictReplace d k v).map Prod.fst = d.map Prod.fst := by
  induction d with
  | nil => rfl
  | cons p rest ih =>
      obtain ⟨k', v'⟩ := p
      by_cases he : k' = k <;> simp [dictReplace, he, ih]

theorem map_fst_dictInsert_of_contains {α : Type} {d : List (String × α)} {k : String}
    (v : α) (h : dictContainsKey d k = true) :
    (dictInsert d k v).map Prod.fst = d.map Prod.fst := by
  unfold dictInsert
  rw [if_pos h]
  exact map_fst_dictReplace d k v

theorem map_fst_dictInsert_of_not_contains {α : Type} {d : List (String × α)} {k : String}
    (v : α) (h : dictContainsKey d k = false) :
    (dictInsert d k v).map Prod.fst = d.map Prod.fst ++ [k] := by
  unfold dictInsert
  simp [h]

theorem dictInsert_of_not_contains {α : Type} {d : List (String × α)} {k : String}
    (v : α) (h : dictContainsKey d k = false) :
    dictInsert d k v = d ++ [(k, v)] := by
  unfold dictInsert
  simp [h]

theorem mem_fst_dictInsert {α : Type} {d : List (String × α)} {k g : String} {v : α} :
    g ∈ (dictInsert d k v).map Prod.fst ↔ g ∈ d.map Prod.fst ∨ g = k := by
  by_cases h : dictContainsKey d k = true
  · rw [map_fst_dictInsert_of_contains v h]
    constructor
    · exact Or.inl
    · rintro (hm | rfl)
      · exact hm
      · exact (dictContainsKey_iff d g).mp h
  · rw [map_fst_dictInsert_of_not_contains v (by simpa using h)]
    simp

theorem nodup_fst_dictInsert {α : Type} {d : List (String × α)} {k : String} (v : α)
    (h : (d.map Prod.fst).Nodup) : ((dictInsert d k v).map Prod.fst).Nodup := by
  by_cases hc : dictContainsKey d k = true
  · rwa [map_fst_dictInsert_of_contains v hc]
  · rw [map_fst_dictInsert_of_not_contains v (by simpa using hc)]
    refine List.Nodup.append h (List.nodup_singleton k) ?_
    intro x hx hk
    simp only [List.mem_singleton] at hk
    subst hk
    exact hc ((dictContainsKey_iff d x).mpr hx)

theorem mem_dictReplace {α : Type} {d : List (String × α)} {k : String} {v : α}
    {p : String × α} (h : p ∈ dictReplace d k v) :
    (p = (k, v)) ∨ (p ∈ d ∧ p.1 ≠ k) := by
  induction d with
  | nil => simp [dictReplace] at h
  | cons q rest ih =>
      obtain ⟨k', v'⟩ := q
      by_cases he : k' = k
      · simp only [dictReplace, if_pos he, List.mem_cons] at h
        rcases h with h | h
        · exact Or.inl h
        · rcases ih h with h' | h'
          · exact Or.inl h'
          · exact Or.inr ⟨List.mem_cons_of_mem _ h'.1, h'.2⟩
      · simp only [dictReplace, if_neg he, List.mem_cons] at h
        rcases h with h | h
        · subst h
          exact Or.inr ⟨List.mem_cons_self _ _, he⟩
        · rcases ih h with h' | h'
          · exact Or.inl h'
          · exact Or.inr ⟨List.mem_cons_of_mem _ h'.1, h'.2⟩

theorem mem_dictInsert {α : Type} {d : List (String × α)} {k : String} {v : α}
    {p : String × α} (h : p ∈ dictInsert d k v) :
    (p = (k, v)) ∨ (p ∈ d ∧ p.1 ≠ k) := by
  unfold dictInsert at h
  by_cases hc : dictContainsKey d k = true
  · rw [if_pos hc] at h
    exact mem_dictReplace h
  · rw [if_neg (by simp [hc])] at h
    rcases List.mem_append.mp h with hm | hm
    · right
      refine ⟨hm, ?_⟩
      intro he
      apply hc
      apply (dictContainsKey_iff d k).mpr
      rw [← he]
      exact List.mem_map.mpr ⟨p, hm, rfl⟩
    · left
      simpa using hm

theorem mem_dictInsert_self {α : Type} {d : List (String × α)} (k : String) (v : α) :
    (k, v) ∈ dictInsert d k v := by
  unfold dictInsert
  by_cases hc : dictContainsKey d k = true
  · rw [if_pos hc]
    have h : k ∈ d.map Prod.fst := (dictContainsKey_iff d k).mp hc
    induction d with
    | nil => simp at h
    | cons q rest ih =>
        obtain ⟨k', v'⟩ := q
        by_cases he : k' = k
        · simp [dictReplace, he]
        · simp only [List.map_cons, List.mem_cons] at h
          rcases h with h | h
          · exact absurd h.symm he
          · simp only [dictReplace, if_neg he, List.mem_cons]
            right
            exact ih (by simpa [dictContainsKey] using ((dictContainsKey_iff rest k).mpr h)) h
  · rw [if_neg (by simp [hc])]
    simp

/- ===================== lastMatch lemmas ===================== -/

theorem foldl_lastMatch_of_no_match {k : String} {meta : List (String × List String)}
    (h : ∀ p ∈ meta, k ∉ p.2) (acc : Option String) :
    meta.foldl (fun acc p => if k ∈ p.2 then some p.1 else acc) acc = acc := by
  induction meta generalizing acc with
  | nil => rfl
  | cons p rest ih =>
      have hp : k ∉ p.2 := h p (List.mem_cons_self _ _)
      simp only [List.foldl_cons, if_neg hp]
      exact ih (fun q hq => h q (List.mem_cons_of_mem _ hq)) acc

theorem foldl_lastMatch_of_match {k : String} {meta : List (String × List String)}
    (h : ∃ p ∈ meta, k ∈ p.2) (acc : Option String) :
    ∃ f ks, (f, ks) ∈ meta ∧ k ∈ ks ∧
      meta.foldl (fun acc p => if k ∈ p.2 then some p.1 else acc) acc = some f := by
  induction meta generalizing acc with
  | nil => simp at h
  | cons q rest ih =>
      by_cases hq : k ∈ q.2
      · simp only [List.foldl_cons, if_pos hq]
        by_cases hr : ∃ p ∈ rest, k ∈ p.2
        · obtain ⟨f, ks, hm, hk, he⟩ := ih hr (some q.1)
          exact ⟨f, ks, List.mem_cons_of_mem _ hm, hk, he⟩
        · push_neg at hr
          refine ⟨q.1, q.2, ?_, hq, ?_⟩
          · simp
          · exact foldl_lastMatch_of_no_match hr (some q.1)
      · obtain ⟨p, hp, hkp⟩ := h
        rcases List.mem_cons.mp hp with rfl | hp'
        · exact absurd hkp hq
        · simp only [List.foldl_cons, if_neg hq]
          obtain ⟨f, ks, hm, hk, he⟩ := ih ⟨p, hp', hkp⟩ acc
          exact ⟨f, ks, List.mem_cons_of_mem _ hm, hk, he⟩

theorem lastMatch_none_iff {meta : List (String × List String)} {k : String} :
    lastMatch meta k = none ↔ ∀ p ∈ meta, k ∉ p.2 := by
  constructor
  · intro h
    by_contra hc
    push_neg at hc
    obtain ⟨f, ks, _, _, he⟩ := foldl_lastMatch_of_match hc (none : Option String)
    rw [lastMatch] at h
    rw [h] at he
    exact Option.noConfusion he
  · intro h
    exact foldl_lastMatch_of_no_match h none

theorem lastMatch_mem {meta : List (String × List String)} {k f : String}
    (h : lastMatch meta k = some f) : ∃ ks, (f, ks) ∈ meta ∧ k ∈ ks := by
  by_cases hm : ∃ p ∈ meta, k ∈ p.2
  · obtain ⟨f', ks, hmem, hk, he⟩ := foldl_lastMatch_of_match hm (none : Option String)
    rw [lastMatch] at h
    rw [h] at he
    have hf : f = f' := Option.some.inj he
    subst hf
    exact ⟨ks, hmem, hk⟩
  · push_neg at hm
    rw [lastMatch_none_iff.mpr hm] at h
    exact Option.noConfusion h

theorem lastMatch_unique {meta : List (String × List String)} {k f : String}
    (hall : ∀ p ∈ meta, k ∈ p.2 → p.1 = f) (hex : ∃ p ∈ meta, k ∈ p.2) :
    lastMatch meta k = some f := by
  obtain ⟨f', ks, hmem, hk, he⟩ := foldl_lastMatch_of_match hex (none : Option String)
  rw [lastMatch, he]
  exact congrArg some (hall (f', ks) hmem hk)

theorem lastMatch_append_single (meta : List (String × List String)) (f : String)
    (ks : List String) (k : String) :
    lastMatch (meta ++ [(f, ks)]) k =
      if k ∈ ks then some f else lastMatch meta k := by
  unfold lastMatch
  rw [List.foldl_append]
  simp only [List.foldl_cons, List.foldl_nil]

/- ===================== pySplit / pyJoin lemmas ===================== -/

/-- The ledger file content corresponding to a list of appended tokens:
each token followed by one comma. -/
def ledgerFlat (toks : List (List Char)) : List Char :=
  (toks.map (fun t => t ++ [','])).flatten

theorem ledgerFlat_append (a b : List (List Char)) :
    ledgerFlat (a ++ b) = ledgerFlat a ++ ledgerFlat b := by
  unfold ledgerFlat
  rw [List.map_append, List.flatten_append]

theorem pySplit_ne_nil (sep : Char) (l : List Char) : pySplit sep l ≠ [] := by
  cases l with
  | nil => simp [pySplit]
  | cons c cs =>
      unfold pySplit
      by_cases h : c = sep
      · simp [h]
      · simp only [if_neg h]
        cases pySplit sep cs <;> simp

theorem pySplit_cons_sep (sep : Char) (cs : List Char) :
    pySplit sep (sep :: cs) = [] :: pySplit sep cs := by
  simp [pySplit]

theorem pySplit_cons_ne {sep c : Char} (cs : List Char) (h : c ≠ sep)
    {p : List Char} {ps : List (List Char)} (hs : pySplit sep cs = p :: ps) :
    pySplit sep (c :: cs) = (c :: p) :: ps := by
  unfold pySplit
  rw [if_neg h, hs]

theorem pySplit_append_sep (sep : Char) (a b : List Char) :
    pySplit sep (a ++ sep :: b) = pySplit sep a ++ pySplit sep b := by
  induction a with
  | nil =>
      rw [List.nil_append, pySplit_cons_sep]
      rfl
  | cons c cs ih =>
      by_cases h : c = sep
      · subst h
        rw [List.cons_append, pySplit_cons_sep, pySplit_cons_sep, ih]
        rfl
      · cases hs : pySplit sep cs with
        | nil => exact absurd hs (pySplit_ne_nil sep cs)
        | cons p ps =>
            have hs' : pySplit sep (cs ++ sep :: b) = p :: (ps ++ pySplit sep b) := by
              rw [ih, hs]
              rfl
            rw [List.cons_append, pySplit_cons_ne _ h hs', pySplit_cons_ne _ h hs]
            rfl

theorem pySplit_no_sep {sep : Char} {t : List Char} (h : ∀ c ∈ t, c ≠ sep) :
    pySplit sep t = [t] := by
  induction t with
  | nil => rfl
  | cons c cs ih =>
      unfold pySplit
      rw [if_neg (h c (List.mem_cons_self _ _))]
      rw [ih (fun c' hc' => h c' (List.mem_cons_of_mem _ hc'))]

theorem pySplit_ledgerFlat {toks : List (List Char)}
    (h : ∀ t ∈ toks, ∀ c ∈ t, c ≠ ',') :
    pySplit ',' (ledgerFlat toks) = toks ++ [[]] := by
  induction toks with
  | nil => rfl
  | cons t ts ih =>
      have ht : ∀ c ∈ t, c ≠ ',' := h t (List.mem_cons_self _ _)
      have hflat : ledgerFlat (t :: ts) = t ++ ',' :: ledgerFlat ts := by
        unfold ledgerFlat
        simp
      rw [hflat, pySplit_append_sep, pySplit_no_sep ht,
        ih (fun u hu => h u (List.mem_cons_of_mem _ hu))]
      rfl

theorem pyJoin_comma_trailing {ks : List (List Char)} (h : ks ≠ []) :
    pyJoin [','] ks ++ [','] = ledgerFlat ks := by
  induction ks with
  | nil => exact absurd rfl h
  | cons t ts ih =>
      cases ts with
      | nil => simp [pyJoin, ledgerFlat]
      | cons u us =>
          have : pyJoin [','] (t :: u :: us) = t ++ [','] ++ pyJoin [','] (u :: us) := rfl
          rw [this]
          have hne : (u :: us : List (List Char)) ≠ [] := by simp
          calc t ++ [','] ++ pyJoin [','] (u :: us) ++ [',']
              = t ++ [','] ++ (pyJoin [','] (u :: us) ++ [',']) := by
                simp [List.append_assoc]
            _ = t ++ [','] ++ ledgerFlat (u :: us) := by rw [ih hne]
            _ = ledgerFlat (t :: u :: us) := by
                unfold ledgerFlat
                simp

theorem ledgerChunk_eq_ledgerFlat {ks : List String} (h : ks ≠ []) :
    ledgerChunk ks = ledgerFlat (ks.map String.data) := by
  unfold ledgerChunk
  exact pyJoin_comma_trailing (by simpa using h)

/- ===================== processAux lemmas ===================== -/

/-- The candidates of a batch that construct successfully and carry a key
not yet in the seen-key set, in batch order. -/
def newObjs {β : Type} (S : Finset String) (cands : List (Candidate β)) :
    List (CkptObject β) :=
  (cands.filterMap constructObj).filter (fun o => decide (o.key ∉ S))

theorem mem_newObjs {β : Type} {S : Finset String} {cands : List (Candidate β)}
    {o : CkptObject β} (h : o ∈ newObjs S cands) :
    (∃ c ∈ cands, constructObj c = some o) ∧ o.key ∉ S := by
  unfold newObjs at h
  have h1 := List.of_mem_filter h
  have h2 := List.mem_of_mem_filter h
  refine ⟨?_, by simpa using h1⟩
  obtain ⟨c, hc, he⟩ := List.mem_filterMap.mp h2
  exact ⟨c, hc, he⟩

theorem procAux_keys {β : Type} {S : Finset String} {cands : List (Candidate β)}
    {aD d : List (String × CkptObject β)} {aK ks : List String}
    (h : processAux S aD aK cands = Except.ok (d, ks)) :
    ks = aK ++ (newObjs S cands).map CkptObject.key := by
  induction cands generalizing aD aK with
  | nil =>
      simp only [processAux, Except.ok.injEq, Prod.mk.injEq] at h
      simp [newObjs, ← h.2]
  | cons c rest ih =>
      rw [processAux] at h
      cases hc : constructObj c with
      | none =>
          simp only [hc] at h
          exact Except.noConfusion h
      | some o =>
          simp only [hc] at h
          by_cases hk : o.key ∈ S
          · rw [if_pos hk] at h
            rw [ih h]
            simp [newObjs, List.filterMap_cons, hc, hk]
          · rw [if_neg hk] at h
            rw [ih h]
            simp [newObjs, List.filterMap_cons, hc, hk]

theorem procAux_typeError {β : Type} (S : Finset String) {cands : List (Candidate β)}
    (aD : List (String × CkptObject β)) (aK : List String)
    (h : Candidate.bad ∈ cands) :
    processAux S aD aK cands = Except.error SaveError.typeError := by
  induction cands generalizing aD aK with
  | nil => simp at h
  | cons c rest ih =>
      rw [processAux]
      rcases List.mem_cons.mp h with rfl | h'
      · rfl
      · cases hc : constructObj c with
        | none => simp only [hc]
        | some o =>
            simp only [hc]
            by_cases hk : o.key ∈ S
            · rw [if_pos hk]
              exact ih _ _ h'
            · rw [if_neg hk]
              exact ih _ _ h'

theorem procAux_dict_keys {β : Type} {S : Finset String} {cands : List (Candidate β)}
    {aD d : List (String × CkptObject β)} {aK ks : List String}
    (h : processAux S aD aK cands = Except.ok (d, ks))
    (hnd : (aD.map Prod.fst).Nodup)
    (hiff : ∀ x, x ∈ aD.map Prod.fst ↔ x ∈ aK) :
    (d.map Prod.fst).Nodup ∧ (∀ x, x ∈ d.map Prod.fst ↔ x ∈ ks) := by
  induction cands generalizing aD aK with
  | nil =>
      simp only [processAux, Except.ok.injEq, Prod.mk.injEq] at h
      rw [← h.1, ← h.2]
      exact ⟨hnd, hiff⟩
  | cons c rest ih =>
      rw [processAux] at h
      cases hc : constructObj c with
      | none =>
          simp only [hc] at h
          exact Except.noConfusion h
      | some o =>
          simp only [hc] at h
          by_cases hk : o.key ∈ S
          · rw [if_pos hk] at h
            exact ih h hnd hiff
          · rw [if_neg hk] at h
            refine ih h (nodup_fst_dictInsert o hnd) ?_
            intro x
            rw [mem_fst_dictInsert, hiff x]
            simp

theorem procAux_lookup {β : Type} {S : Finset String} {cands : List (Candidate β)}
    {aD d : List (String × CkptObject β)} {aK ks : List String}
    (h : processAux S aD aK cands = Except.ok (d, ks)) (x : String) :
    dictLookup d x = cands.foldl
      (fun acc c =>
        match constructObj c with
        | some o => if o.key = x ∧ o.key ∉ S then some o else acc
        | none => acc)
      (dictLookup aD x) := by
  induction cands generalizing aD aK with
  | nil =>
      simp only [processAux, Except.ok.injEq, Prod.mk.injEq] at h
      rw [← h.1]
      rfl
  | cons c rest ih =>
      rw [processAux] at h
      simp only [List.foldl_cons]
      cases hc : constructObj c with
      | none =>
          simp only [hc] at h
          exact Except.noConfusion h
      | some o =>
          simp only [hc] at h
          simp only [hc]
          by_cases hk : o.key ∈ S
          · rw [if_pos hk] at h
            rw [if_neg (by simp [hk])]
            exact ih h
          · rw [if_neg hk] at h
            rw [ih h]
            congr 1
            by_cases hx : o.key = x
            · rw [if_pos ⟨hx, hk⟩]
              rw [← hx, dictLookup_insert_self]
            · rw [if_neg (by simp [hx])]
              rw [dictLookup_insert_other _ _ _ _ (fun he => hx he.symm)]

theorem procAux_allOld {β : Type} {S : Finset String} {cands : List (Candidate β)}
    (aD : List (String × CkptObject β)) (aK : List String)
    (h : ∀ c ∈ cands, ∃ o, constructObj c = some o ∧ o.key ∈ S) :
    processAux S aD aK cands = Except.ok (aD, aK) := by
  induction cands generalizing aD aK with
  | nil => rfl
  | cons c rest ih =>
      obtain ⟨o, ho, hk⟩ := h c (List.mem_cons_self _ _)
      rw [processAux]
      simp only [ho]
      rw [if_pos hk]
      exact ih _ _ (fun c' hc' => h c' (List.mem_cons_of_mem _ hc'))

theorem procCandidates_lookup {β : Type} {S : Finset String}
    {cands : List (Candidate β)} {d : List (String × CkptObject β)}
    {ks : List String} (h : processCandidates S cands = Except.ok (d, ks))
    (x : String) : dictLookup d x = lastNewWithKey S cands x :=
  procAux_lookup h x

/- ===================== save_objects characterization ===================== -/

theorem save_objects_none {β : Type} (s : Store β) (now : Nat) :
    save_objects s none now = (s, none) := rfl

theorem save_objects_oversized {β : Type} (s : Store β) {cands : List (Candidate β)}
    (now : Nat) (h : cands.length > s.max_objects) :
    save_objects s (some cands) now = (s, some SaveError.oversized) := by
  rw [save_objects]
  rw [if_pos h]

theorem save_objects_error {β : Type} (s : Store β) {cands : List (Candidate β)}
    (now : Nat) (hlen : ¬cands.length > s.max_objects) {e : SaveError}
    (hp : processCandidates s.obj_set cands = Except.error e) :
    save_objects s (some cands) now = (s, some e) := by
  rw [save_objects]
  rw [if_neg hlen, hp]

theorem save_objects_skip {β : Type} (s : Store β) {cands : List (Candidate β)}
    (now : Nat) (hlen : ¬cands.length > s.max_objects)
    {ks : List String}
    (hp : processCandidates s.obj_set cands = Except.ok ([], ks)) :
    save_objects s (some cands) now = (s, none) := by
  rw [save_objects]
  rw [if_neg hlen, hp]
  rfl

theorem save_objects_write {β : Type} (s : Store β) {cands : List (Candidate β)}
    (now : Nat) (hlen : ¬cands.length > s.max_objects)
    {d : List (String × CkptObject β)} {ks : List String}
    (hp : processCandidates s.obj_set cands = Except.ok (d, ks))
    (hd : 0 < d.length) :
    save_objects s (some cands) now =
      ({ obj_set := s.obj_set ∪ ks.toFinset
         ledgerFile := some ((s.ledgerFile.getD []) ++ ledgerChunk ks)
         metadataFile := some (dictInsert (s.metadataFile.getD [])
           (get_hash (d.map Prod.fst) ++ ".pkl") (d.map Prod.fst))
         blobs := dictInsert s.blobs (get_hash (d.map Prod.fst) ++ ".pkl") d
         last_modified := now
         max_objects := s.max_objects }, none) := by
  rw [save_objects]
  rw [if_neg hlen, hp]
  simp only [if_pos hd]
  rfl

/- ===================== Store invariants ===================== -/

/-- The blob directory and the index document name exactly the same files. -/
def DomEq {β : Type} (s : Store β) : Prop :=
  s.blobs.map Prod.fst = (s.metadataFile.getD []).map Prod.fst

/-- Every index entry points at an existing blob whose stored dict has
exactly the listed keys. -/
def BlobsMatch {β : Type} (s : Store β) : Prop :=
  ∀ f ks, (f, ks) ∈ s.metadataFile.getD [] →
    ∃ d, dictLookup s.blobs f = some d ∧ d.map Prod.fst = ks

/-- Every key listed in the index is in the in-memory seen-key set. -/
def IndexSub {β : Type} (s : Store β) : Prop :=
  ∀ x, x ∈ indexUnion s → x ∈ s.obj_set

/-- Every key stored in any blob is in the in-memory seen-key set. -/
def BlobKeysSub {β : Type} (s : Store β) : Prop :=
  ∀ p ∈ s.blobs, ∀ k, dictContainsKey p.2 k = true → k ∈ s.obj_set

/-- The invariants every reachable store state satisfies. -/
def StoreInv {β : Type} (s : Store β) : Prop :=
  DomEq s ∧ BlobsMatch s ∧ IndexSub s ∧ BlobKeysSub s

theorem mem_indexUnion {β : Type} {s : Store β} {x : String} :
    x ∈ indexUnion s ↔ ∃ p ∈ s.metadataFile.getD [], x ∈ p.2 := by
  unfold indexUnion
  induction s.metadataFile.getD [] with
  | nil => simp
  | cons p rest ih =>
      simp only [List.map_cons, List.foldr_cons, Finset.mem_union, List.mem_toFinset, ih]
      constructor
      · rintro (h | ⟨q, hq, hx⟩)
        · exact ⟨p, List.mem_cons_self _ _, by simpa using h⟩
        · exact ⟨q, List.mem_cons_of_mem _ hq, hx⟩
      · rintro ⟨q, hq, hx⟩
        rcases List.mem_cons.mp hq with rfl | hq'
        · exact Or.inl (by simpa using hx)
        · exact Or.inr ⟨q, hq', hx⟩

theorem dictContainsKey_congr {α γ : Type} {d : List (String × α)}
    {e : List (String × γ)} (h : d.map Prod.fst = e.map Prod.fst) (k : String) :
    dictContainsKey d k = dictContainsKey e k := by
  by_cases hd : dictContainsKey d k = true
  · have := (dictContainsKey_iff d k).mp hd
    rw [h] at this
    rw [hd, ((dictContainsKey_iff e k).mpr this)]
  · have hd' : dictContainsKey d k = false := by simpa using hd
    rw [hd']
    by_cases he : dictContainsKey e k = true
    · have := (dictContainsKey_iff e k).mp he
      rw [← h] at this
      exact absurd ((dictContainsKey_iff d k).mpr this) hd
    · simpa using (Ne.symm he)

theorem newStore_inv (β : Type) (maxObjects ctime : Nat) :
    StoreInv (newStore β maxObjects ctime) := by
  refine ⟨rfl, ?_, ?_, ?_⟩
  · intro f ks h
    simp [newStore] at h
  · intro x h
    rw [mem_indexUnion] at h
    obtain ⟨p, hp, _⟩ := h
    simp [newStore] at hp
  · intro p hp
    simp [newStore] at hp

/-- The store state after a blob-writing save call. -/
def writeStore {β : Type} (s : Store β) (d : List (String × CkptObject β))
    (ks : List String) (now : Nat) : Store β :=
  { obj_set := s.obj_set ∪ ks.toFinset
    ledgerFile := some ((s.ledgerFile.getD []) ++ ledgerChunk ks)
    metadataFile := some (dictInsert (s.metadataFile.getD [])
      (get_hash (d.map Prod.fst) ++ ".pkl") (d.map Prod.fst))
    blobs := dictInsert s.blobs (get_hash (d.map Prod.fst) ++ ".pkl") d
    last_modified := now
    max_objects := s.max_objects }

/-- A `save_objects` call either leaves the store untouched (no-op, raise,
or all-duplicates batch) or performs exactly one write step. -/
theorem save_objects_dichotomy {β : Type} {s s' : Store β}
    {mo : Option (List (Candidate β))} {now : Nat} {e : Option SaveError}
    (h : save_objects s mo now = (s', e)) :
    s' = s ∨ ∃ cands d ks, mo = some cands ∧ ¬cands.length > s.max_objects ∧
      processCandidates s.obj_set cands = Except.ok (d, ks) ∧ 0 < d.length ∧
      e = none ∧ s' = writeStore s d ks now := by
  cases mo with
  | none =>
      rw [save_objects_none] at h
      injection h with h1 h2
      exact Or.inl h1.symm
  | some cands =>
      by_cases hlen : cands.length > s.max_objects
      · rw [save_objects_oversized s now hlen] at h
        injection h with h1 h2
        exact Or.inl h1.symm
      · cases hp : processCandidates s.obj_set cands with
        | error err =>
            rw [save_objects_error s now hlen hp] at h
            injection h with h1 h2
            exact Or.inl h1.symm
        | ok pr =>
            obtain ⟨d, ks⟩ := pr
            by_cases hd : 0 < d.length
            · rw [save_objects_write s now hlen hp hd] at h
              injection h with h1 h2
              exact Or.inr ⟨cands, d, ks, rfl, hlen, hp, hd, h2.symm, h1.symm⟩
            · have hd0 : d = [] := by
                cases d with
                | nil => rfl
                | cons a as => simp at hd
              subst hd0
              rw [save_objects_skip s now hlen hp] at h
              injection h with h1 h2
              exact Or.inl h1.symm

theorem save_objects_inv {β : Type} {s s' : Store β}
    {mo : Option (List (Candidate β))} {now : Nat} {e : Option SaveError}
    (hinv : StoreInv s) (h : save_objects s mo now = (s', e)) : StoreInv s' := by
  rcases save_objects_dichotomy h with rfl | ⟨cands, d, ks, _, _, hp, _, _, rfl⟩
  · exact hinv
  · obtain ⟨hdom, hmatch, hsub, hblob⟩ := hinv
    have hkeys := procAux_dict_keys hp (by simp) (by simp)
    refine ⟨?_, ?_, ?_, ?_⟩
    · show (dictInsert s.blobs _ d).map Prod.fst = (dictInsert _ _ _).map Prod.fst
      have hc := dictContainsKey_congr hdom (get_hash (d.map Prod.fst) ++ ".pkl")
      by_cases hcb : dictContainsKey s.blobs (get_hash (d.map Prod.fst) ++ ".pkl") = true
      · rw [map_fst_dictInsert_of_contains _ hcb,
          map_fst_dictInsert_of_contains _ (by rw [← hc]; exact hcb), hdom]
      · have hcb' : dictContainsKey s.blobs (get_hash (d.map Prod.fst) ++ ".pkl") = false := by
          simpa using hcb
        rw [map_fst_dictInsert_of_not_contains _ hcb',
          map_fst_dictInsert_of_not_contains _ (by rw [← hc]; exact hcb'), hdom]
    · intro f ks' hmem
      simp only [writeStore, Option.getD_some] at hmem
      rcases mem_dictInsert hmem with he | ⟨hold, hne⟩
      · obtain ⟨he1, he2⟩ := Prod.mk.injEq .. ▸ he
        subst he1
        refine ⟨d, ?_, he2.symm⟩
        show dictLookup (dictInsert s.blobs _ d) _ = some d
        exact dictLookup_insert_self _ _ _
      · obtain ⟨dd, hdd, hddk⟩ := hmatch f ks' hold
        refine ⟨dd, ?_, hddk⟩
        show dictLookup (dictInsert s.blobs _ d) f = some dd
        rw [dictLookup_insert_other _ _ _ _ hne]
        exact hdd
    · intro x hx
      rw [mem_indexUnion] at hx
      obtain ⟨p, hp', hxp⟩ := hx
      simp only [writeStore, Option.getD_some] at hp'
      show x ∈ s.obj_set ∪ ks.toFinset
      rcases mem_dictInsert hp' with he | ⟨hold, _⟩
      · subst he
        have : x ∈ ks := (hkeys.2 x).mp hxp
        exact Finset.mem_union_right _ (List.mem_toFinset.mpr this)
      · have : x ∈ indexUnion s := mem_indexUnion.mpr ⟨p, hold, hxp⟩
        exact Finset.mem_union_left _ (hsub x this)
    · intro p hpmem k hk
      simp only [writeStore] at hpmem
      show k ∈ s.obj_set ∪ ks.toFinset
      rcases mem_dictInsert hpmem with he | ⟨hold, _⟩
      · subst he
        have : k ∈ d.map Prod.fst := (dictContainsKey_iff d k).mp hk
        exact Finset.mem_union_right _ (List.mem_toFinset.mpr ((hkeys.2 k).mp this))
      · exact Finset.mem_union_left _ (hblob p hold k hk)

theorem runSaves_cons_ok {β : Type} {s s1 : Store β} {b : SaveInput β}
    (bs : List (SaveInput β)) (hsv : save_objects s b.objs b.now = (s1, none)) :
    runSaves s (b :: bs) = runSaves s1 bs := by
  rw [runSaves, hsv]

theorem runSaves_cons_err {β : Type} {s s1 : Store β} {b : SaveInput β}
    {err : SaveError} (bs : List (SaveInput β))
    (hsv : save_objects s b.objs b.now = (s1, some err)) :
    runSaves s (b :: bs) = (s1, some err) := by
  rw [runSaves, hsv]

theorem runSaves_inv {β : Type} {bs : List (SaveInput β)} {s s' : Store β}
    {e : Option SaveError} (hinv : StoreInv s) (h : runSaves s bs = (s', e)) :
    StoreInv s' := by
  induction bs generalizing s with
  | nil =>
      rw [runSaves] at h
      injection h with h1 h2
      rw [← h1]
      exact hinv
  | cons b rest ih =>
      cases hsv : save_objects s b.objs b.now with
      | mk s1 e1 =>
          cases e1 with
          | none =>
              rw [runSaves_cons_ok rest hsv] at h
              exact ih (save_objects_inv hinv hsv) h
          | some err =>
              rw [runSaves_cons_err rest hsv] at h
              injection h with h1 h2
              rw [← h1]
              exact save_objects_inv hinv hsv

/- ===================== get_specific_object lemmas ===================== -/

theorem get_spec_inversion {β : Type} {s : Store β} {k : String} {o : CkptObject β}
    (h : get_specific_object s k = Except.ok o) :
    ∃ meta f dd, s.metadataFile = some meta ∧ lastMatch meta k = some f ∧
      dictLookup s.blobs f = some dd ∧ dictLookup dd k = some o := by
  unfold get_specific_object at h
  split at h
  · exact Except.noConfusion h
  · rename_i meta hm
    split at h
    · exact Except.noConfusion h
    · rename_i f hl
      split at h
      · exact Except.noConfusion h
      · rename_i dd hb
        split at h
        · exact Except.noConfusion h
        · rename_i o' hv
          refine ⟨meta, f, dd, hm, hl, hb, ?_⟩
          rw [hv]
          exact congrArg some (Except.ok.inj h)

theorem get_spec_construct {β : Type} {s : Store β} {k : String} {o : CkptObject β}
    {meta : List (String × List String)} {f : String}
    {dd : List (String × CkptObject β)}
    (hm : s.metadataFile = some meta) (hl : lastMatch meta k = some f)
    (hb : dictLookup s.blobs f = some dd) (hv : dictLookup dd k = some o) :
    get_specific_object s k = Except.ok o := by
  unfold get_specific_object
  simp only [hm, hl, hb, hv]

theorem procCandidates_keys_not_mem {β : Type} {S : Finset String}
    {cands : List (Candidate β)} {d : List (String × CkptObject β)}
    {ks : List String} (h : processCandidates S cands = Except.ok (d, ks)) :
    ∀ x ∈ ks, x ∉ S := by
  intro x hx
  have hk := procAux_keys h
  rw [List.nil_append] at hk
  rw [hk] at hx
  obtain ⟨o', ho', hko⟩ := List.mem_map.mp hx
  have := (mem_newObjs ho').2
  rw [hko] at this
  exact this

theorem saveFresh_write {β : Type} {s : Store β} {cands : List (Candidate β)}
    (hlen : ¬cands.length > s.max_objects)
    {d : List (String × CkptObject β)} {ks : List String}
    (hp : processCandidates s.obj_set cands = Except.ok (d, ks))
    (hd : 0 < d.length) (hf : saveFresh s (some cands) = true) :
    dictContainsKey (s.metadataFile.getD []) (get_hash (d.map Prod.fst) ++ ".pkl") = false := by
  unfold saveFresh writtenFilename at hf
  simp only [if_neg hlen, hp, if_pos hd] at hf
  simpa using hf

/-- After a save call accepts key `k` (storing object `o` for it in the
`objects_to_save` dict), a lookup on the resulting store returns `o`. -/
theorem get_writeStore_new {β : Type} {s : Store β} {cands : List (Candidate β)}
    {d : List (String × CkptObject β)} {ks : List String} {k : String}
    {o : CkptObject β} {now : Nat} (hinv : StoreInv s)
    (hp : processCandidates s.obj_set cands = Except.ok (d, ks))
    (hk : dictLookup d k = some o) :
    get_specific_object (writeStore s d ks now) k = Except.ok o := by
  obtain ⟨hdom, hmatch, hsub, hblob⟩ := hinv
  have hkeys := procAux_dict_keys hp (by simp) (by simp)
  have hkd : k ∈ d.map Prod.fst := mem_fst_of_dictLookup_some hk
  have hks : k ∈ ks := (hkeys.2 k).mp hkd
  have hknotin : k ∉ s.obj_set := procCandidates_keys_not_mem hp k hks
  have hall : ∀ p ∈ dictInsert (s.metadataFile.getD [])
      (get_hash (d.map Prod.fst) ++ ".pkl") (d.map Prod.fst), k ∈ p.2 →
      p.1 = get_hash (d.map Prod.fst) ++ ".pkl" := by
    intro p hpmem hkp
    rcases mem_dictInsert hpmem with he | ⟨hold, _⟩
    · rw [he]
    · exfalso
      exact hknotin (hsub k (mem_indexUnion.mpr ⟨p, hold, hkp⟩))
  have hex : ∃ p ∈ dictInsert (s.metadataFile.getD [])
      (get_hash (d.map Prod.fst) ++ ".pkl") (d.map Prod.fst), k ∈ p.2 :=
    ⟨(get_hash (d.map Prod.fst) ++ ".pkl", d.map Prod.fst),
      mem_dictInsert_self _ _, hkd⟩
  have hm : (writeStore s d ks now).metadataFile = some (dictInsert (s.metadataFile.getD [])
      (get_hash (d.map Prod.fst) ++ ".pkl") (d.map Prod.fst)) := rfl
  have hb : dictLookup (writeStore s d ks now).blobs
      (get_hash (d.map Prod.fst) ++ ".pkl") = some d :=
    dictLookup_insert_self _ _ _
  exact get_spec_construct hm (lastMatch_unique hall hex) hb hk

/-- A name-fresh save call does not disturb the result of a lookup that
succeeded before it. -/
theorem get_preserved_save {β : Type} {s s' : Store β}
    {mo : Option (List (Candidate β))} {now : Nat} {k : String} {o : CkptObject β}
    (hinv : StoreInv s) (h : save_objects s mo now = (s', none))
    (hf : saveFresh s mo = true)
    (hget : get_specific_object s k = Except.ok o) :
    get_specific_object s' k = Except.ok o := by
  rcases save_objects_dichotomy h with rfl | ⟨cands, d, ks, hmo, hlen, hp, hd, _, rfl⟩
  · exact hget
  · subst hmo
    obtain ⟨hdom, hmatch, hsub, hblob⟩ := hinv
    have hkeys := procAux_dict_keys hp (by simp) (by simp)
    obtain ⟨meta, f, dd, hm, hl, hb, hv⟩ := get_spec_inversion hget
    have hcf : dictContainsKey (s.metadataFile.getD [])
        (get_hash (d.map Prod.fst) ++ ".pkl") = false :=
      saveFresh_write hlen hp hd hf
    have hmeta0 : s.metadataFile.getD [] = meta := by rw [hm]; rfl
    have hkin : k ∈ s.obj_set := by
      refine hblob (f, dd) (mem_of_dictLookup_some hb) k ?_
      exact (dictContainsKey_iff dd k).mpr (mem_fst_of_dictLookup_some hv)
    have hknotks : k ∉ d.map Prod.fst := by
      intro hc
      exact procCandidates_keys_not_mem hp k ((hkeys.2 k).mp hc) hkin
    have hfne : f ≠ get_hash (d.map Prod.fst) ++ ".pkl" := by
      intro he
      have hfmem : f ∈ s.blobs.map Prod.fst := mem_fst_of_dictLookup_some hb
      rw [hdom, hmeta0] at hfmem
      rw [he] at hfmem
      rw [hmeta0] at hcf
      exact absurd ((dictContainsKey_iff meta _).mpr hfmem) (by simp [hcf])
    have hmeta' : dictInsert (s.metadataFile.getD [])
        (get_hash (d.map Prod.fst) ++ ".pkl") (d.map Prod.fst) =
        meta ++ [(get_hash (d.map Prod.fst) ++ ".pkl", d.map Prod.fst)] := by
      rw [dictInsert_of_not_contains _ hcf, hmeta0]
    have hm' : (writeStore s d ks now).metadataFile = some (dictInsert (s.metadataFile.getD [])
        (get_hash (d.map Prod.fst) ++ ".pkl") (d.map Prod.fst)) := rfl
    have hl' : lastMatch (dictInsert (s.metadataFile.getD [])
        (get_hash (d.map Prod.fst) ++ ".pkl") (d.map Prod.fst)) k = some f := by
      rw [hmeta', lastMatch_append_single, if_neg hknotks]
      exact hl
    have hb' : dictLookup (writeStore s d ks now).blobs f = some dd := by
      show dictLookup (dictInsert s.blobs _ d) f = some dd
      rw [dictLookup_insert_other _ _ _ _ hfne]
      exact hb
    exact get_spec_construct hm' hl' hb' hv

theorem freshRun_cons {β : Type} (s : Store β) (b : SaveInput β)
    (bs : List (SaveInput β)) :
    freshRun s (b :: bs) =
      (saveFresh s b.objs && freshRun (save_objects s b.objs b.now).1 bs) := rfl

/-- Lookups that succeed are stable under any further sequence of
successful, name-fresh save calls. -/
theorem get_preserved_run {β : Type} {bs : List (SaveInput β)} {s s' : Store β}
    {k : String} {o : CkptObject β} (hinv : StoreInv s)
    (h : runSaves s bs = (s', none)) (hf : freshRun s bs = true)
    (hget : get_specific_object s k = Except.ok o) :
    get_specific_object s' k = Except.ok o := by
  induction bs generalizing s with
  | nil =>
      rw [runSaves] at h
      injection h with h1 h2
      rw [← h1]
      exact hget
  | cons b rest ih =>
      rw [freshRun_cons] at hf
      obtain ⟨hf1, hf2⟩ := Bool.and_eq_true .. ▸ hf
      cases hsv : save_objects s b.objs b.now with
      | mk s1 e1 =>
          cases e1 with
          | none =>
              rw [runSaves_cons_ok rest hsv] at h
              rw [hsv] at hf2
              exact ih (save_objects_inv hinv hsv) h hf2
                (get_preserved_save hinv hsv hf1 hget)
          | some err =>
              rw [runSaves_cons_err rest hsv] at h
              injection h with h1 h2
              exact Option.noConfusion h2

/- ===================== Ledger = index-union (fresh runs) ===================== -/

theorem foldr_union_init (l : List (Finset String)) (init : Finset String) :
    l.foldr (· ∪ ·) init = l.foldr (· ∪ ·) ∅ ∪ init := by
  induction l with
  | nil => simp
  | cons t ts ih =>
      simp only [List.foldr_cons, ih]
      rw [Finset.union_assoc]

theorem indexUnion_writeStore_fresh {β : Type} {s : Store β}
    {d : List (String × CkptObject β)} {ks : List String} {now : Nat}
    (hcf : dictContainsKey (s.metadataFile.getD [])
      (get_hash (d.map Prod.fst) ++ ".pkl") = false) :
    indexUnion (writeStore s d ks now) = indexUnion s ∪ (d.map Prod.fst).toFinset := by
  unfold indexUnion writeStore
  simp only [Option.getD_some]
  rw [dictInsert_of_not_contains _ hcf]
  rw [List.map_append, List.foldr_append]
  simp only [List.map_cons, List.map_nil, List.foldr_cons, List.foldr_nil]
  rw [foldr_union_init]
  simp

theorem ledgerEq_preserved_save {β : Type} {s s' : Store β}
    {mo : Option (List (Candidate β))} {now : Nat}
    (hinv : StoreInv s) (hEq : s.obj_set = indexUnion s)
    (hsv : save_objects s mo now = (s', none)) (hf : saveFresh s mo = true) :
    s'.obj_set = indexUnion s' := by
  rcases save_objects_dichotomy hsv with rfl | ⟨cands, d, ks, hmo, hlen, hp, hd, _, rfl⟩
  · exact hEq
  · subst hmo
    have hkeys := procAux_dict_keys hp (by simp) (by simp)
    have hcf := saveFresh_write hlen hp hd hf
    rw [indexUnion_writeStore_fresh hcf]
    show s.obj_set ∪ ks.toFinset = indexUnion s ∪ (d.map Prod.fst).toFinset
    rw [hEq]
    congr 1
    ext x
    rw [List.mem_toFinset, List.mem_toFinset]
    exact ((hkeys.2 x).symm)

theorem ledgerEq_run {β : Type} {bs : List (SaveInput β)} {s s' : Store β}
    (hinv : StoreInv s) (hEq : s.obj_set = indexUnion s)
    (h : runSaves s bs = (s', none)) (hf : freshRun s bs = true) :
    s'.obj_set = indexUnion s' := by
  induction bs generalizing s with
  | nil =>
      rw [runSaves] at h
      injection h with h1 h2
      rw [← h1]
      exact hEq
  | cons b rest ih =>
      rw [freshRun_cons] at hf
      obtain ⟨hf1, hf2⟩ := Bool.and_eq_true .. ▸ hf
      cases hsv : save_objects s b.objs b.now with
      | mk s1 e1 =>
          cases e1 with
          | none =>
              rw [runSaves_cons_ok rest hsv] at h
              rw [hsv] at hf2
              exact ih (save_objects_inv hinv hsv)
                (ledgerEq_preserved_save hinv hEq hsv hf1) h hf2
          | some err =>
              rw [runSaves_cons_err rest hsv] at h
              injection h with h1 h2
              exact Option.noConfusion h2

/- ===================== countStored lemmas ===================== -/

theorem countStored_eq_zero {β : Type} {s : Store β} {k : String}
    (hblob : BlobKeysSub s) (hk : k ∉ s.obj_set) : countStored s k = 0 := by
  unfold countStored
  rw [List.length_eq_zero]
  rw [List.filter_eq_nil_iff]
  intro p hp
  simp only [Bool.not_eq_true]
  cases hc : dictContainsKey p.2 k with
  | false => rfl
  | true => exact absurd (hblob p hp k hc) hk

theorem countStored_writeStore_fresh {β : Type} {s : Store β}
    {d : List (String × CkptObject β)} {ks : List String} {now : Nat} {k : String}
    (hdom : DomEq s)
    (hcf : dictContainsKey (s.metadataFile.getD [])
      (get_hash (d.map Prod.fst) ++ ".pkl") = false) :
    countStored (writeStore s d ks now) k =
      countStored s k + (if dictContainsKey d k = true then 1 else 0) := by
  have hcb : dictContainsKey s.blobs (get_hash (d.map Prod.fst) ++ ".pkl") = false := by
    rw [dictContainsKey_congr hdom]
    exact hcf
  unfold countStored writeStore
  simp only
  rw [dictInsert_of_not_contains _ hcb]
  rw [List.filter_append, List.length_append]
  congr 1
  by_cases hc : dictContainsKey d k = true
  · simp [hc]
  · simp only [Bool.not_eq_true] at hc
    simp [hc]

theorem save_obj_set_mono {β : Type} {s s' : Store β}
    {mo : Option (List (Candidate β))} {now : Nat} {e : Option SaveError}
    (h : save_objects s mo now = (s', e)) : ∀ x ∈ s.obj_set, x ∈ s'.obj_set := by
  rcases save_objects_dichotomy h with rfl | ⟨cands, d, ks, _, _, _, _, _, rfl⟩
  · intro x hx
    exact hx
  · intro x hx
    exact Finset.mem_union_left _ hx

theorem runSaves_obj_set_mono {β : Type} {bs : List (SaveInput β)} {s s' : Store β}
    {e : Option SaveError} (h : runSaves s bs = (s', e)) :
    ∀ x ∈ s.obj_set, x ∈ s'.obj_set := by
  induction bs generalizing s with
  | nil =>
      rw [runSaves] at h
      injection h with h1 h2
      rw [← h1]
      exact fun x hx => hx
  | cons b rest ih =>
      cases hsv : save_objects s b.objs b.now with
      | mk s1 e1 =>
          cases e1 with
          | none =>
              rw [runSaves_cons_ok rest hsv] at h
              exact fun x hx => ih h x (save_obj_set_mono hsv x hx)
          | some err =>
              rw [runSaves_cons_err rest hsv] at h
              injection h with h1 h2
              rw [← h1]
              exact save_obj_set_mono hsv

theorem countStored_preserved_save {β : Type} {s s' : Store β}
    {mo : Option (List (Candidate β))} {now : Nat} {k : String}
    (hinv : StoreInv s) (hk : k ∈ s.obj_set)
    (hsv : save_objects s mo now = (s', none)) (hf : saveFresh s mo = true) :
    countStored s' k = countStored s k := by
  rcases save_objects_dichotomy hsv with rfl | ⟨cands, d, ks, hmo, hlen, hp, hd, _, rfl⟩
  · rfl
  · subst hmo
    have hkeys := procAux_dict_keys hp (by simp) (by simp)
    have hcf := saveFresh_write hlen hp hd hf
    rw [countStored_writeStore_fresh hinv.1 hcf]
    have hc : dictContainsKey d k = false := by
      cases hc : dictContainsKey d k with
      | false => rfl
      | true =>
          have := (hkeys.2 k).mp ((dictContainsKey_iff d k).mp hc)
          exact absurd hk (procCandidates_keys_not_mem hp k this)
    rw [hc]
    simp

theorem countStored_preserved_run {β : Type} {bs : List (SaveInput β)}
    {s s' : Store β} {k : String} (hinv : StoreInv s) (hk : k ∈ s.obj_set)
    (h : runSaves s bs = (s', none)) (hf : freshRun s bs = true) :
    countStored s' k = countStored s k := by
  induction bs generalizing s with
  | nil =>
      rw [runSaves] at h
      injection h with h1 h2
      rw [← h1]
  | cons b rest ih =>
      rw [freshRun_cons] at hf
      obtain ⟨hf1, hf2⟩ := Bool.and_eq_true .. ▸ hf
      cases hsv : save_objects s b.objs b.now with
      | mk s1 e1 =>
          cases e1 with
          | none =>
              rw [runSaves_cons_ok rest hsv] at h
              rw [hsv] at hf2
              rw [ih (save_objects_inv hinv hsv) (save_obj_set_mono hsv k hk) h hf2]
              exact countStored_preserved_save hinv hk hsv hf1
          | some err =>
              rw [runSaves_cons_err rest hsv] at h
              injection h with h1 h2
              exact Option.noConfusion h2

/- ===================== all-duplicates batches ===================== -/

theorem save_objects_allOld {β : Type} (s : Store β) {cands : List (Candidate β)}
    (now : Nat) (hlen : ¬cands.length > s.max_objects)
    (h : ∀ c ∈ cands, ∃ o, constructObj c = some o ∧ o.key ∈ s.obj_set) :
    save_objects s (some cands) now = (s, none) :=
  save_objects_skip s now hlen (procAux_allOld [] [] h)

/- ===================== Ledger file content ===================== -/

theorem map_mk_data (ks : List String) :
    (ks.map String.data).map String.mk = ks := by
  rw [List.map_map]
  have : ∀ x : String, String.mk x.data = x := fun ⟨d⟩ => rfl
  calc ks.map (String.mk ∘ String.data) = ks.map id :=
        List.map_congr_left (fun x _ => this x)
    _ = ks := List.map_id ks

/-- The relation between the ledger file's content and the set of keys
appended so far: the file is exactly the comma-terminated tokens, in
order, and those tokens (as strings) form the in-memory seen-key set. -/
def LedgerOk {β : Type} (s : Store β) : Prop :=
  (s.ledgerFile = none ∧ s.obj_set = ∅) ∨
  ∃ toks, s.ledgerFile = some (ledgerFlat toks) ∧
    (toks.map String.mk).toFinset = s.obj_set ∧
    ∀ t ∈ toks, ∀ c ∈ t, c ≠ ','

theorem string_commaFree_of_keyCommaFree {β : Type} {c : Candidate β}
    {o : CkptObject β} (hc : constructObj c = some o)
    (h : keyCommaFree c = true) : ∀ ch ∈ o.key.data, ch ≠ ',' := by
  unfold keyCommaFree at h
  simp only [hc] at h
  intro ch hch he
  subst he
  rw [Bool.not_eq_true'] at h
  have h2 : o.key.data.contains ',' = true := by
    rw [List.contains_eq_any_beq, List.any_eq_true]
    exact ⟨',', hch, by simp⟩
  rw [h2] at h
  exact Bool.noConfusion h

theorem ks_commaFree {β : Type} {S : Finset String} {cands : List (Candidate β)}
    {d : List (String × CkptObject β)} {ks : List String}
    (hp : processCandidates S cands = Except.ok (d, ks))
    (hcc : cands.all keyCommaFree = true) :
    ∀ t ∈ ks.map String.data, ∀ ch ∈ t, ch ≠ ',' := by
  intro t ht
  obtain ⟨x, hx, hxt⟩ := List.mem_map.mp ht
  have hk := procAux_keys hp
  rw [List.nil_append] at hk
  rw [hk] at hx
  obtain ⟨o', ho', hko⟩ := List.mem_map.mp hx
  obtain ⟨⟨c, hc, hcons⟩, _⟩ := mem_newObjs ho'
  have hfree := List.all_eq_true.mp hcc c hc
  subst hxt
  rw [← hko]
  exact string_commaFree_of_keyCommaFree hcons hfree

theorem ledgerOk_preserved_save {β : Type} {s s' : Store β}
    {mo : Option (List (Candidate β))} {now : Nat}
    (hL : LedgerOk s) (hsv : save_objects s mo now = (s', none))
    (hcc : inputKeysCommaFree (SaveInput.mk mo now) = true) :
    LedgerOk s' := by
  rcases save_objects_dichotomy hsv with rfl | ⟨cands, d, ks, hmo, hlen, hp, hd, _, rfl⟩
  · exact hL
  · subst hmo
    have hkeys := procAux_dict_keys hp (by simp) (by simp)
    have hcc' : cands.all keyCommaFree = true := by
      simpa [inputKeysCommaFree] using hcc
    have hksfree := ks_commaFree hp hcc'
    have hksne : ks ≠ [] := by
      intro he
      subst he
      cases d with
      | nil => simp at hd
      | cons p rest =>
          have := (hkeys.2 p.1).mp (by simp)
          simp at this
    have hchunk : ledgerChunk ks = ledgerFlat (ks.map String.data) :=
      ledgerChunk_eq_ledgerFlat hksne
    rcases hL with ⟨hnone, hempty⟩ | ⟨toks, hfile, hset, hfree⟩
    · right
      refine ⟨ks.map String.data, ?_, ?_, hksfree⟩
      · show some ((s.ledgerFile.getD []) ++ ledgerChunk ks) = _
        rw [hnone, hchunk]
        rfl
      · show ((ks.map String.data).map String.mk).toFinset = s.obj_set ∪ ks.toFinset
        rw [map_mk_data, hempty, Finset.empty_union]
    · right
      refine ⟨toks ++ ks.map String.data, ?_, ?_, ?_⟩
      · show some ((s.ledgerFile.getD []) ++ ledgerChunk ks) = _
        rw [hfile, hchunk]
        simp only [Option.getD_some]
        rw [ledgerFlat_append]
      · show ((toks ++ ks.map String.data).map String.mk).toFinset =
          s.obj_set ∪ ks.toFinset
        rw [List.map_append, List.toFinset_append, hset, map_mk_data]
      · intro t ht
        rcases List.mem_append.mp ht with h' | h'
        · exact hfree t h'
        · exact hksfree t h'

theorem ledgerOk_run {β : Type} {bs : List (SaveInput β)} {s s' : Store β}
    (hL : LedgerOk s) (h : runSaves s bs = (s', none))
    (hcc : bs.all inputKeysCommaFree = true) : LedgerOk s' := by
  induction bs generalizing s with
  | nil =>
      rw [runSaves] at h
      injection h with h1 h2
      rw [← h1]
      exact hL
  | cons b rest ih =>
      rw [List.all_cons, Bool.and_eq_true] at hcc
      cases hsv : save_objects s b.objs b.now with
      | mk s1 e1 =>
          cases e1 with
          | none =>
              rw [runSaves_cons_ok rest hsv] at h
              refine ih (ledgerOk_preserved_save hL ?_ hcc.1) h hcc.2
              cases b with
              | mk objs now => exact hsv
          | some err =>
              rw [runSaves_cons_err rest hsv] at h
              injection h with h1 h2
              exact Option.noConfusion h2

theorem loadObjSet_of_ledgerOk {β : Type} {s : Store β} (hL : LedgerOk s) :
    (s.ledgerFile = none → s.obj_set = ∅ ∧ loadObjSet s.ledgerFile = ∅) ∧
    (∀ c, s.ledgerFile = some c →
      loadObjSet s.ledgerFile = insert "" s.obj_set) := by
  rcases hL with ⟨hnone, hempty⟩ | ⟨toks, hfile, hset, hfree⟩
  · constructor
    · intro _
      exact ⟨hempty, by rw [hnone]; rfl⟩
    · intro c hc
      rw [hnone] at hc
      exact Option.noConfusion hc
  · constructor
    · intro hc
      rw [hfile] at hc
      exact Option.noConfusion hc
    · intro c _
      rw [hfile]
      show ((pySplit ',' (ledgerFlat toks)).map String.mk).toFinset = _
      rw [pySplit_ledgerFlat hfree]
      rw [List.map_append, List.toFinset_append, hset]
      show s.obj_set ∪ ([String.mk []].toFinset) = insert "" s.obj_set
      rw [Finset.union_comm]
      simp
      rfl

/- ===================== Helpers for claim statements ===================== -/

theorem save_objects_write_eq {β : Type} {s : Store β} {cands : List (Candidate β)}
    {now : Nat} (hlen : ¬cands.length > s.max_objects)
    {d : List (String × CkptObject β)} {ks : List String}
    (hp : processCandidates s.obj_set cands = Except.ok (d, ks))
    (hd : 0 < d.length) :
    save_objects s (some cands) now = (writeStore s d ks now, none) := by
  rw [save_objects_write s now hlen hp hd]
  rfl

theorem hlen_of_save_ok {β : Type} {s s' : Store β} {cands : List (Candidate β)}
    {now : Nat} (h : save_objects s (some cands) now = (s', none)) :
    ¬cands.length > s.max_objects := by
  intro hc
  rw [save_objects_oversized s now hc] at h
  injection h with h1 h2
  exact Option.noConfusion h2

theorem save_ok_write {β : Type} {s s' : Store β} {cands : List (Candidate β)}
    {now : Nat} {d : List (String × CkptObject β)} {ks : List String}
    (hsv : save_objects s (some cands) now = (s', none))
    (hp : processCandidates s.obj_set cands = Except.ok (d, ks))
    (hd : 0 < d.length) : s' = writeStore s d ks now := by
  rw [save_objects_write_eq (hlen_of_save_ok hsv) hp hd] at hsv
  injection hsv with h1 h2
  exact h1.symm

/-- An already-seen candidate: constructible and with a key in the set. -/
def candOld {β : Type} (S : Finset String) (c : Candidate β) : Bool :=
  match constructObj c with
  | some o => decide (o.key ∈ S)
  | none => false

/-- A candidate carrying the key `k`. -/
def candHasKey {β : Type} (k : String) (c : Candidate β) : Bool :=
  match constructObj c with
  | some o => o.key == k
  | none => false

theorem candOld_forall {β : Type} {S : Finset String} {cands : List (Candidate β)}
    (h : cands.all (candOld S) = true) :
    ∀ c ∈ cands, ∃ o, constructObj c = some o ∧ o.key ∈ S := by
  intro c hc
  have := List.all_eq_true.mp h c hc
  unfold candOld at this
  cases hco : constructObj c with
  | none =>
      rw [hco] at this
      exact Bool.noConfusion this
  | some o =>
      rw [hco] at this
      exact ⟨o, rfl, of_decide_eq_true this⟩

/-- Candidate used by the concrete scenarios below. -/
def mkObj (k : String) (p : Nat) : Candidate Nat := Candidate.inst ⟨k, p⟩

/- The filename-collision scenario: the two batches have disjoint key
sets, but the separator-free concatenations of their new keys coincide
("a" ++ "bc" = "ab" ++ "c"), so both calls produce the same blob name. -/

def collideBatchA : List (Candidate Nat) := [mkObj "a" 1, mkObj "bc" 2]

def collideBatchB : List (Candidate Nat) := [mkObj "ab" 3, mkObj "c" 4]

def collideS0 : Store Nat := newStore Nat 1000 0

def collideS1 : Store Nat := (save_objects collideS0 (some collideBatchA) 1).1

def collideS2 : Store Nat := (save_objects collideS1 (some collideBatchB) 2).1

def collideS3 : Store Nat := (save_objects collideS2 (some [mkObj "a" 9]) 3).1

/- ===================== Claim C4 ===================== -/

/-- C4: a `save_objects` call whose candidate count strictly exceeds
`max_objects` raises the oversized-batch `ValueError` and returns with the
entire store state — ledger file, index document, blob set, in-memory
seen-key set and watermark — exactly as it was before the call. -/
theorem C4_batch_cap {β : Type} (s : Store β) (cands : List (Candidate β))
    (now : Nat) (h : cands.length > s.max_objects) :
    save_objects s (some cands) now = (s, some SaveError.oversized) :=
  save_objects_oversized s now h

theorem C4_batch_cap_witness :
    save_objects (newStore Nat 1 0) (some [mkObj "a" 1, mkObj "b" 2]) 7 =
      (newStore Nat 1 0, some SaveError.oversized) :=
  C4_batch_cap (newStore Nat 1 0) [mkObj "a" 1, mkObj "b" 2] 7 (by decide)

/- ===================== Claim C5 ===================== -/

/-- C5 counterexample: a batch that contains a candidate of the wrong type
but also exceeds `max_objects` raises the oversized-batch error, not the
type error — the length check runs first — so the claim "every batch
containing a non-conforming candidate raises a type error" fails. -/
theorem C5_counterexample :
    Candidate.bad ∈ ([Candidate.bad, Candidate.bad] : List (Candidate Nat)) ∧
    save_objects (newStore Nat 1 0) (some [Candidate.bad, Candidate.bad]) 5 =
      (newStore Nat 1 0, some SaveError.oversized) ∧
    SaveError.oversized ≠ SaveError.typeError := by
  refine ⟨by decide, by decide, by decide⟩

/-- C5 (amended): provided the batch does not exceed `max_objects`, a batch
containing a candidate that is neither a metaclass instance nor a
constructible field-mapping raises the `TypeError` and the call returns
with the store — blobs, index, ledger, seen-key set, watermark — entirely
unmodified, even when well-typed candidates precede the offending one. -/
theorem C5_shape_mismatch {β : Type} (s : Store β) (cands : List (Candidate β))
    (now : Nat) (hlen : ¬cands.length > s.max_objects)
    (hbad : Candidate.bad ∈ cands) :
    save_objects s (some cands) now = (s, some SaveError.typeError) :=
  save_objects_error s now hlen (procAux_typeError s.obj_set [] [] hbad)

theorem C5_shape_mismatch_witness :
    save_objects (newStore Nat 1000 0) (some [mkObj "a" 1, Candidate.bad]) 3 =
      (newStore Nat 1000 0, some SaveError.typeError) :=
  C5_shape_mismatch (newStore Nat 1000 0) [mkObj "a" 1, Candidate.bad] 3
    (by decide) (by decide)

/- ===================== Claim C9 ===================== -/

/-- C9: `get_hash` returns the SHA-1 hex digest of the UTF-8 encoding of
the input strings concatenated in order with no separator, and is
deterministic: equal input sequences give equal digests.  The two
concrete digests anchor the embedding: the first is the published SHA-1
of `"abc"`, the second is the blob filename hard-coded in the
repository's own test suite (the batch with keys "5".."9"). -/
theorem C9_get_hash :
    (∀ l : List String, get_hash l = sha1Hex (utf8Bytes (l.foldl (· ++ ·) ""))) ∧
    (∀ l1 l2 : List String, l1 = l2 → get_hash l1 = get_hash l2) ∧
    get_hash ["abc"] = "a9993e364706816aba3e25717850c26c9cd0d89d" ∧
    get_hash ["5", "6", "7", "8", "9"] = "f2231d2871e690a2995704f7a297bd7bc64be720" :=
  ⟨fun _ => rfl, fun _ _ h => by rw [h], by decide, by decide⟩

theorem C9_get_hash_witness : get_hash ["w"] = get_hash ["w"] :=
  C9_get_hash.2.1 ["w"] ["w"] rfl

/- ===================== Claim C7 ===================== -/

/-- C7 counterexample: after saving the single key `"x"` the ledger file
holds `"x,"`; reloading it parses to the set `{"x", ""}` — the trailing
comma contributes an empty-string member — which differs from the set
`{"x"}` of keys actually appended, refuting "the set of keys parsed from
its comma-separated content equals exactly the set of keys previously
appended". -/
theorem C7_counterexample :
    (save_objects (newStore Nat 1000 0) (some [mkObj "x" 1]) 1).2 = none ∧
    (save_objects (newStore Nat 1000 0) (some [mkObj "x" 1]) 1).1.obj_set = {"x"} ∧
    loadObjSet (save_objects (newStore Nat 1000 0) (some [mkObj "x" 1]) 1).1.ledgerFile ≠
      (save_objects (newStore Nat 1000 0) (some [mkObj "x" 1]) 1).1.obj_set ∧
    loadObjSet (save_objects (newStore Nat 1000 0) (some [mkObj "x" 1]) 1).1.ledgerFile =
      {"x", ""} := by
  refine ⟨by decide, by decide, by decide, by decide⟩

/-- C7 (amended): at construction, a missing ledger file yields the empty
seen-key set (that part of the claim holds); a ledger file written by a
prior run whose keys contain no comma parses to the set of keys
previously appended **plus the empty string** contributed by the trailing
comma (and an existing-but-empty file would likewise parse to `{""}`,
not `∅`). -/
theorem C7_ledger_reload {β : Type} (m t0 : Nat) (bs : List (SaveInput β))
    (s : Store β) (h : runSaves (newStore β m t0) bs = (s, none))
    (hcc : bs.all inputKeysCommaFree = true) :
    (s.ledgerFile = none → s.obj_set = ∅ ∧ loadObjSet s.ledgerFile = ∅) ∧
    (∀ c, s.ledgerFile = some c →
      loadObjSet s.ledgerFile = insert "" s.obj_set) :=
  loadObjSet_of_ledgerOk (ledgerOk_run (Or.inl ⟨rfl, rfl⟩) h hcc)

theorem C7_ledger_reload_witness :
    loadObjSet (runSaves (newStore Nat 1000 0) [SaveInput.mk (some [mkObj "x" 1]) 1]).1.ledgerFile =
      insert "" (runSaves (newStore Nat 1000 0) [SaveInput.mk (some [mkObj "x" 1]) 1]).1.obj_set :=
  (C7_ledger_reload 1000 0 [SaveInput.mk (some [mkObj "x" 1]) 1] _
    (by decide) (by decide)).2 ['x', ','] (by decide)

/- ===================== Claim C1 ===================== -/

/-- C1 counterexample: two successful save calls from the empty store with
disjoint key sets whose concatenations collide ("a"+"bc" = "ab"+"c")
produce the same blob filename; the second call's index entry replaces
the first call's, so the in-memory ledger set (4 keys) is strictly larger
than the union of the index's key lists (2 keys), refuting the invariant
`ledger == union(index.values())`. -/
theorem C1_counterexample :
    (save_objects collideS0 (some collideBatchA) 1).2 = none ∧
    (save_objects collideS1 (some collideBatchB) 2).2 = none ∧
    collideS2.obj_set ≠ indexUnion collideS2 := by
  refine ⟨by decide, by decide, by decide⟩

/-- C1 (amended): after every sequence of successful `save_objects` calls
starting from an empty store in which each blob-writing call generates a
filename not already present in the index (i.e. no SHA-1 blob-name
collision), the in-memory seen-key ledger set equals the union of the key
lists over all entries of the persisted index document. -/
theorem C1_ledger_index_consistency {β : Type} (m t0 : Nat)
    (bs : List (SaveInput β)) (s : Store β)
    (h : runSaves (newStore β m t0) bs = (s, none))
    (hf : freshRun (newStore β m t0) bs = true) :
    s.obj_set = indexUnion s :=
  ledgerEq_run (newStore_inv β m t0) rfl h hf

def c1Trace : List (SaveInput Nat) :=
  [SaveInput.mk (some [mkObj "u" 1]) 1, SaveInput.mk (some [mkObj "v" 2]) 2]

theorem C1_ledger_index_consistency_witness :
    (runSaves (newStore Nat 1000 0) c1Trace).1.obj_set =
    indexUnion (runSaves (newStore Nat 1000 0) c1Trace).1 :=
  C1_ledger_index_consistency 1000 0 c1Trace
    (runSaves (newStore Nat 1000 0) c1Trace).1 (by decide) (by decide)

/- ===================== Claim C6 ===================== -/

/-- C6 counterexample: both calls of the collision scenario write a blob,
and they generate the **same** filename; the second call truncates and
rewrites the blob file created by the first ("wb" mode), so blobs are not
write-once and distinct writing calls do not always produce distinctly
named files. -/
theorem C6_counterexample :
    (save_objects collideS0 (some collideBatchA) 1).2 = none ∧
    (save_objects collideS1 (some collideBatchB) 2).2 = none ∧
    (writtenFilename collideS0 (some collideBatchA)).isSome = true ∧
    writtenFilename collideS1 (some collideBatchB) =
      writtenFilename collideS0 (some collideBatchA) ∧
    dictLookup collideS2.blobs
        ((writtenFilename collideS0 (some collideBatchA)).getD "") ≠
      dictLookup collideS1.blobs
        ((writtenFilename collideS0 (some collideBatchA)).getD "") := by
  refine ⟨by decide, by decide, by decide, by decide, by decide⟩

/-- C6 (amended): a successful `save_objects` call modifies no blob file
other than the one named by its own generated filename; and when that
filename is fresh (not already in the index) the named blob did not exist
before the call and holds exactly the call's new-object dict afterwards.
Hence blobs are write-once provided all generated filenames are pairwise
distinct — the guarantee fails exactly on SHA-1 blob-name collisions. -/
theorem C6_blobs_write_once {β : Type} (s s' : Store β)
    (cands : List (Candidate β)) (now : Nat)
    (d : List (String × CkptObject β)) (ks : List String)
    (hinv : StoreInv s)
    (hsv : save_objects s (some cands) now = (s', none))
    (hp : processCandidates s.obj_set cands = Except.ok (d, ks)) :
    (∀ g, g ≠ get_hash (d.map Prod.fst) ++ ".pkl" →
      dictLookup s'.blobs g = dictLookup s.blobs g) ∧
    (saveFresh s (some cands) = true → 0 < d.length →
      dictLookup s.blobs (get_hash (d.map Prod.fst) ++ ".pkl") = none ∧
      dictLookup s'.blobs (get_hash (d.map Prod.fst) ++ ".pkl") = some d) := by
  by_cases hd : 0 < d.length
  · have hs' := save_ok_write hsv hp hd
    subst hs'
    constructor
    · intro g hg
      show dictLookup (dictInsert s.blobs _ d) g = dictLookup s.blobs g
      exact dictLookup_insert_other _ _ _ _ hg
    · intro hf _
      have hcf := saveFresh_write (hlen_of_save_ok hsv) hp hd hf
      have hcb : dictContainsKey s.blobs (get_hash (d.map Prod.fst) ++ ".pkl") = false := by
        rw [dictContainsKey_congr hinv.1]
        exact hcf
      constructor
      · refine dictLookup_eq_none_of_not_mem ?_
        intro hm
        rw [(dictContainsKey_iff _ _).mpr hm] at hcb
        exact Bool.noConfusion hcb
      · show dictLookup (dictInsert s.blobs _ d) _ = some d
        exact dictLookup_insert_self _ _ _
  · have hd0 : d = [] := by
      cases d with
      | nil => rfl
      | cons a as => simp at hd
    subst hd0
    rw [save_objects_skip s now (hlen_of_save_ok hsv) hp] at hsv
    injection hsv with h1 h2
    subst h1
    constructor
    · intro g _
      rfl
    · intro _ hd'
      simp at hd'

theorem C6_blobs_write_once_witness :
    (∀ g, g ≠ get_hash (["w"]) ++ ".pkl" →
      dictLookup (save_objects (newStore Nat 1000 0) (some [mkObj "w" 3]) 1).1.blobs g =
        dictLookup (newStore Nat 1000 0).blobs g) ∧
    (saveFresh (newStore Nat 1000 0) (some [mkObj "w" 3]) = true →
      0 < ([("w", (⟨"w", 3⟩ : CkptObject Nat))] : List (String × CkptObject Nat)).length →
      dictLookup (newStore Nat 1000 0).blobs (get_hash ["w"] ++ ".pkl") = none ∧
      dictLookup (save_objects (newStore Nat 1000 0) (some [mkObj "w" 3]) 1).1.blobs
        (get_hash ["w"] ++ ".pkl") = some [("w", ⟨"w", 3⟩)]) :=
  C6_blobs_write_once (newStore Nat 1000 0)
    (save_objects (newStore Nat 1000 0) (some [mkObj "w" 3]) 1).1 [mkObj "w" 3] 1
    [("w", ⟨"w", 3⟩)] ["w"] (newStore_inv Nat 1000 0) (by decide) (by decide)

/- ===================== Claim C2 ===================== -/

/-- C2 counterexample: key `"a"` is accepted by the first call of the
collision scenario, but after the second call (whose colliding blob name
replaced the first call's index entry and blob) `get_specific_object "a"`
raises `KeyError` instead of returning the object saved for `"a"`. -/
theorem C2_counterexample :
    (save_objects collideS0 (some collideBatchA) 1).2 = none ∧
    "a" ∈ collideS1.obj_set ∧
    (save_objects collideS1 (some collideBatchB) 2).2 = none ∧
    get_specific_object collideS2 "a" = Except.error GetError.keyNotFound := by
  refine ⟨by decide, by decide, by decide, by decide⟩

/-- C2 (amended): starting from an empty store, if a successful save call
accepts a previously-unseen key `k` with `o` the object its
`objects_to_save` dict stores for `k` (the last submitted occurrence in
that batch), then after any further sequence of successful save calls
each of whose blob filenames is fresh (no SHA-1 blob-name collision),
`get_specific_object k` returns exactly `o`. -/
theorem C2_roundtrip {β : Type} (m t0 : Nat) (pre : List (SaveInput β))
    (s0 s1 sf : Store β) (cands : List (Candidate β)) (now : Nat)
    (rest : List (SaveInput β)) (d : List (String × CkptObject β))
    (ks : List String) (k : String) (o : CkptObject β)
    (hpre : runSaves (newStore β m t0) pre = (s0, none))
    (hsv : save_objects s0 (some cands) now = (s1, none))
    (hp : processCandidates s0.obj_set cands = Except.ok (d, ks))
    (hk : dictLookup d k = some o)
    (hrest : runSaves s1 rest = (sf, none))
    (hfrest : freshRun s1 rest = true) :
    get_specific_object sf k = Except.ok o := by
  have hinv0 : StoreInv s0 := runSaves_inv (newStore_inv β m t0) hpre
  have hd : 0 < d.length := by
    cases d with
    | nil => exact absurd hk (by simp [dictLookup])
    | cons a as => simp
  have hs1 := save_ok_write hsv hp hd
  subst hs1
  exact get_preserved_run (save_objects_inv hinv0 hsv) hrest hfrest
    (get_writeStore_new hinv0 hp hk)

def c2s1 : Store Nat := (save_objects (newStore Nat 1000 0) (some [mkObj "r" 7]) 1).1

def c2rest : List (SaveInput Nat) := [SaveInput.mk (some [mkObj "q" 8]) 2]

theorem C2_roundtrip_witness :
    get_specific_object (runSaves c2s1 c2rest).1 "r" = Except.ok ⟨"r", 7⟩ :=
  C2_roundtrip 1000 0 [] (newStore Nat 1000 0) c2s1 (runSaves c2s1 c2rest).1
    [mkObj "r" 7] 1 c2rest
    [("r", ⟨"r", 7⟩)] ["r"] "r" ⟨"r", 7⟩ (by decide) (by decide) (by decide)
    (by decide) (by decide) (by decide)

/- ===================== Claim C3 ===================== -/

/-- C3 counterexample: key "a" is accepted by the first call; an
intervening call whose blob name collides overwrites that blob and index
entry; a third call resubmitting "a" (all of whose keys are already in
the ledger) is a no-op — and afterwards **zero** stored copies of "a"
exist, not exactly one holding the first call's payload. -/
theorem C3_counterexample :
    (save_objects collideS0 (some collideBatchA) 1).2 = none ∧
    "a" ∈ collideS1.obj_set ∧
    (save_objects collideS1 (some collideBatchB) 2).2 = none ∧
    ([mkObj "a" 9] : List (Candidate Nat)).all (candOld collideS2.obj_set) = true ∧
    (save_objects collideS2 (some [mkObj "a" 9]) 3).2 = none ∧
    countStored collideS3 "a" = 0 := by
  refine ⟨by decide, by decide, by decide, by decide, by decide, by decide⟩

/-- C3 (amended): in a history of successful save calls from an empty
store all of whose blob filenames are fresh (no SHA-1 blob-name
collision), if one call accepts key `k` (storing object `o` for it) and a
later call submits `k` again in a batch containing no unseen keys, then
the later call returns having changed nothing: the store is identical,
exactly one blob holds `k` and lookup still returns `o`, no new blob
exists and the last-modified watermark is unchanged. -/
theorem C3_dedup_idempotence {β : Type} (m t0 : Nat) (pre : List (SaveInput β))
    (s0 s1 s2 s3 : Store β) (cands1 : List (Candidate β)) (n1 : Nat)
    (d : List (String × CkptObject β)) (ks : List String) (k : String)
    (o : CkptObject β) (mid : List (SaveInput β)) (cands2 : List (Candidate β))
    (n2 : Nat)
    (hpre : runSaves (newStore β m t0) pre = (s0, none))
    (hsv1 : save_objects s0 (some cands1) n1 = (s1, none))
    (hf1 : saveFresh s0 (some cands1) = true)
    (hp1 : processCandidates s0.obj_set cands1 = Except.ok (d, ks))
    (hk : dictLookup d k = some o)
    (hmid : runSaves s1 mid = (s2, none))
    (hfmid : freshRun s1 mid = true)
    (hold : cands2.all (candOld s2.obj_set) = true)
    (_hkin : cands2.any (candHasKey k) = true)
    (hlen2 : ¬cands2.length > s2.max_objects)
    (hsv2 : save_objects s2 (some cands2) n2 = (s3, none)) :
    s3 = s2 ∧ countStored s3 k = 1 ∧
    get_specific_object s3 k = Except.ok o ∧
    s3.blobs = s2.blobs ∧ s3.last_modified = s2.last_modified := by
  have hinv0 : StoreInv s0 := runSaves_inv (newStore_inv β m t0) hpre
  have hd : 0 < d.length := by
    cases d with
    | nil => exact absurd hk (by simp [dictLookup])
    | cons a as => simp
  have hs1 := save_ok_write hsv1 hp1 hd
  subst hs1
  have hinv1 := save_objects_inv hinv0 hsv1
  have hnoop : save_objects s2 (some cands2) n2 = (s2, none) :=
    save_objects_allOld s2 n2 hlen2 (candOld_forall hold)
  rw [hnoop] at hsv2
  injection hsv2 with h1 h2
  subst h1
  have hkks : k ∈ ks :=
    ((procAux_dict_keys hp1 (by simp) (by simp)).2 k).mp (mem_fst_of_dictLookup_some hk)
  have hk1 : k ∈ (writeStore s0 d ks n1).obj_set :=
    Finset.mem_union_right _ (List.mem_toFinset.mpr hkks)
  have hknot : k ∉ s0.obj_set := procCandidates_keys_not_mem hp1 k hkks
  have hc0 : countStored s0 k = 0 := countStored_eq_zero hinv0.2.2.2 hknot
  have hcf := saveFresh_write (hlen_of_save_ok hsv1) hp1 hd hf1
  have hc1 : countStored (writeStore s0 d ks n1) k = 1 := by
    rw [countStored_writeStore_fresh hinv0.1 hcf, hc0]
    rw [(dictContainsKey_iff d k).mpr (mem_fst_of_dictLookup_some hk)]
    simp
  have hc2 : countStored s2 k = 1 :=
    (countStored_preserved_run hinv1 hk1 hmid hfmid).trans hc1
  have hget2 : get_specific_object s2 k = Except.ok o :=
    get_preserved_run hinv1 hmid hfmid (get_writeStore_new hinv0 hp1 hk)
  exact ⟨rfl, hc2, hget2, rfl, rfl⟩

def c3s1 : Store Nat := (save_objects (newStore Nat 1000 0) (some [mkObj "z" 1]) 1).1

def c3s3 : Store Nat := (save_objects c3s1 (some [mkObj "z" 5]) 2).1

theorem C3_dedup_idempotence_witness :
    c3s3 = c3s1 ∧ countStored c3s3 "z" = 1 ∧
    get_specific_object c3s3 "z" = Except.ok ⟨"z", 1⟩ ∧
    c3s3.blobs = c3s1.blobs ∧ c3s3.last_modified = c3s1.last_modified :=
  C3_dedup_idempotence 1000 0 [] (newStore Nat 1000 0) c3s1 c3s1 c3s3
    [mkObj "z" 1] 1 [("z", ⟨"z", 1⟩)] ["z"] "z" ⟨"z", 1⟩ []
    [mkObj "z" 5] 2 (by decide) (by decide) (by decide) (by decide)
    (by decide) (by decide) (by decide) (by decide) (by decide) (by decide)
    (by decide)

/- ===================== Claim C8 ===================== -/

/-- C8: on any store reached by successful save calls from an empty store,
`get_specific_object k` raises the not-found `KeyError` exactly when the
index document does not exist or no index entry's key list contains `k`;
otherwise it returns the member with key `k` taken from the blob named by
the last index entry whose key list contains `k`. -/
theorem C8_point_lookup {β : Type} (m t0 : Nat) (bs : List (SaveInput β))
    (s : Store β) (k : String)
    (h : runSaves (newStore β m t0) bs = (s, none)) :
    ((get_specific_object s k = Except.error GetError.keyNotFound) ↔
      (s.metadataFile = none ∨ ∀ p ∈ s.metadataFile.getD [], k ∉ p.2)) ∧
    (∀ f, lastMatch (s.metadataFile.getD []) k = some f →
      ∃ dd o, dictLookup s.blobs f = some dd ∧ dictLookup dd k = some o ∧
        get_specific_object s k = Except.ok o) := by
  have hinv : StoreInv s := runSaves_inv (newStore_inv β m t0) h
  have hmatch := hinv.2.1
  have part2 : ∀ f, lastMatch (s.metadataFile.getD []) k = some f →
      ∃ dd o, dictLookup s.blobs f = some dd ∧ dictLookup dd k = some o ∧
        get_specific_object s k = Except.ok o := by
    intro f hf
    cases hm : s.metadataFile with
    | none =>
        rw [hm] at hf
        simp [lastMatch] at hf
    | some meta =>
        rw [hm] at hf
        simp only [Option.getD_some] at hf
        obtain ⟨ks', hmem, hkk⟩ := lastMatch_mem hf
        obtain ⟨dd, hdd, hddk⟩ := hmatch f ks' (by simpa [hm] using hmem)
        have hkdd : k ∈ dd.map Prod.fst := by
          rw [hddk]
          exact hkk
        obtain ⟨o, ho⟩ := dictLookup_isSome_of_mem hkdd
        exact ⟨dd, o, hdd, ho, get_spec_construct hm hf hdd ho⟩
  refine ⟨⟨?_, ?_⟩, part2⟩
  · intro hget
    by_cases hm : s.metadataFile = none
    · exact Or.inl hm
    · right
      intro p hp hkp
      obtain ⟨meta, hmeta⟩ := Option.ne_none_iff_exists'.mp hm
      have hp' : p ∈ meta := by simpa [hmeta] using hp
      obtain ⟨f, ks', hmem, hkk, he⟩ :=
        foldl_lastMatch_of_match ⟨p, hp', hkp⟩ (none : Option String)
      have hlm : lastMatch ((s.metadataFile).getD []) k = some f := by
        rw [hmeta]
        exact he
      obtain ⟨dd, o, hdd, ho, hok⟩ := part2 f hlm
      rw [hok] at hget
      exact Except.noConfusion hget
  · intro hh
    rcases hh with hm | hall
    · simp [get_specific_object, hm]
    · cases hm : s.metadataFile with
      | none => simp [get_specific_object, hm]
      | some meta =>
          have hall' : ∀ p ∈ meta, k ∉ p.2 := by
            intro p hp
            exact hall p (by simpa [hm] using hp)
          have hlm : lastMatch meta k = none := lastMatch_none_iff.mpr hall'
          simp [get_specific_object, hm, hlm]

def c8Trace : List (SaveInput Nat) := [SaveInput.mk (some [mkObj "p" 4]) 1]

theorem C8_point_lookup_witness :
    ((get_specific_object (runSaves (newStore Nat 1000 0) c8Trace).1 "p" =
        Except.error GetError.keyNotFound) ↔
      ((runSaves (newStore Nat 1000 0) c8Trace).1.metadataFile = none ∨
        ∀ p ∈ (runSaves (newStore Nat 1000 0) c8Trace).1.metadataFile.getD [],
          "p" ∉ p.2)) ∧
    (∀ f, lastMatch ((runSaves (newStore Nat 1000 0) c8Trace).1.metadataFile.getD [])
        "p" = some f →
      ∃ dd o, dictLookup (runSaves (newStore Nat 1000 0) c8Trace).1.blobs f = some dd ∧
        dictLookup dd "p" = some o ∧
        get_specific_object (runSaves (newStore Nat 1000 0) c8Trace).1 "p" =
          Except.ok o) :=
  C8_point_lookup 1000 0 c8Trace (runSaves (newStore Nat 1000 0) c8Trace).1 "p"
    (by decide)

/- ===================== Claim C10 ===================== -/

/-- C10: when a single save call's batch contains the same not-yet-seen
(comma-free) key `k` more than once, the written blob stores the **last**
occurrence's object for `k`, the blob name is derived from the
deduplicated key sequence (the dict's keys: no duplicates, same members
as `keys_to_save`), the index entry lists `k` exactly once — but the
ledger file is appended with one token per occurrence, so the appended
comma-joined region parses to `keys_to_save ++ [""]` and lists `k` at
least twice. -/
theorem C10_ledger_duplicates {β : Type} (s s' : Store β)
    (cands : List (Candidate β)) (now : Nat)
    (d : List (String × CkptObject β)) (ks : List String) (k : String)
    (hsv : save_objects s (some cands) now = (s', none))
    (hp : processCandidates s.obj_set cands = Except.ok (d, ks))
    (hcount : 2 ≤ ks.count k)
    (hcc : cands.all keyCommaFree = true) :
    dictLookup d k = lastNewWithKey s.obj_set cands k ∧
    dictLookup s'.blobs (get_hash (d.map Prod.fst) ++ ".pkl") = some d ∧
    dictLookup (s'.metadataFile.getD []) (get_hash (d.map Prod.fst) ++ ".pkl") =
      some (d.map Prod.fst) ∧
    (d.map Prod.fst).count k = 1 ∧
    (d.map Prod.fst).Nodup ∧
    (∀ x, x ∈ d.map Prod.fst ↔ x ∈ ks) ∧
    s'.ledgerFile = some ((s.ledgerFile.getD []) ++ ledgerChunk ks) ∧
    (pySplit ',' (ledgerChunk ks)).map String.mk = ks ++ [""] ∧
    2 ≤ ((pySplit ',' (ledgerChunk ks)).map String.mk).count k := by
  have hkeys := procAux_dict_keys hp (by simp) (by simp)
  have hkks : k ∈ ks :=
    List.count_pos_iff.mp (Nat.lt_of_lt_of_le (by decide) hcount)
  have hkd : k ∈ d.map Prod.fst := (hkeys.2 k).mpr hkks
  have hd : 0 < d.length := by
    cases d with
    | nil => simp at hkd
    | cons a as => simp
  have hs' := save_ok_write hsv hp hd
  subst hs'
  have hksne : ks ≠ [] := by
    intro he
    rw [he] at hkks
    simp at hkks
  have hsplit : (pySplit ',' (ledgerChunk ks)).map String.mk = ks ++ [""] := by
    rw [ledgerChunk_eq_ledgerFlat hksne, pySplit_ledgerFlat (ks_commaFree hp hcc)]
    rw [List.map_append, map_mk_data]
    rfl
  refine ⟨procCandidates_lookup hp k, ?_, ?_, ?_, hkeys.1, hkeys.2, rfl, hsplit, ?_⟩
  · show dictLookup (dictInsert s.blobs _ d) _ = some d
    exact dictLookup_insert_self _ _ _
  · show dictLookup (dictInsert (s.metadataFile.getD []) _ (d.map Prod.fst)) _ =
      some (d.map Prod.fst)
    exact dictLookup_insert_self _ _ _
  · exact List.count_eq_one_of_mem hkeys.1 hkd
  · rw [hsplit, List.count_append]
    exact Nat.le_trans hcount (Nat.le_add_right _ _)

theorem C10_ledger_duplicates_witness :
    dictLookup [("k", (⟨"k", 2⟩ : CkptObject Nat)), ("m", ⟨"m", 3⟩)] "k" =
      lastNewWithKey (newStore Nat 1000 0).obj_set
        [mkObj "k" 1, mkObj "k" 2, mkObj "m" 3] "k" ∧
    dictLookup (save_objects (newStore Nat 1000 0)
        (some [mkObj "k" 1, mkObj "k" 2, mkObj "m" 3]) 1).1.blobs
      (get_hash ["k", "m"] ++ ".pkl") = some [("k", ⟨"k", 2⟩), ("m", ⟨"m", 3⟩)] ∧
    dictLookup ((save_objects (newStore Nat 1000 0)
        (some [mkObj "k" 1, mkObj "k" 2, mkObj "m" 3]) 1).1.metadataFile.getD [])
      (get_hash ["k", "m"] ++ ".pkl") = some ["k", "m"] ∧
    (["k", "m"] : List String).count "k" = 1 ∧
    (["k", "m"] : List String).Nodup ∧
    (∀ x, x ∈ (["k", "m"] : List String) ↔ x ∈ (["k", "k", "m"] : List String)) ∧
    (save_objects (newStore Nat 1000 0)
        (some [mkObj "k" 1, mkObj "k" 2, mkObj "m" 3]) 1).1.ledgerFile =
      some (((newStore Nat 1000 0).ledgerFile.getD []) ++ ledgerChunk ["k", "k", "m"]) ∧
    (pySplit ',' (ledgerChunk ["k", "k", "m"])).map String.mk =
      ["k", "k", "m"] ++ [""] ∧
    2 ≤ ((pySplit ',' (ledgerChunk ["k", "k", "m"])).map String.mk).count "k" := by
  have := C10_ledger_duplicates (newStore Nat 1000 0)
    (save_objects (newStore Nat 1000 0)
      (some [mkObj "k" 1, mkObj "k" 2, mkObj "m" 3]) 1).1
    [mkObj "k" 1, mkObj "k" 2, mkObj "m" 3] 1
    [("k", ⟨"k", 2⟩), ("m", ⟨"m", 3⟩)] ["k", "k", "m"] "k"
    (by decide) (by decide) (by decide) (by decide)
  exact this
